import Mathlib

/-!
Shallow embedding of the core logic of the `InternshipTestTask` repository:

* the run-length mask codec from `cigarette_butt_segmentation/lib/utils.py`
  (`encode_rle`, `decode_rle`),
* the dice metrics from `cigarette_butt_segmentation/lib/metrics.py`
  (`dice`, `get_dice`),
* the trajectory alignment pipeline from `trajectory_prediction/lib`
  (`extend_arr`/`extend_data` in `preprocess.py`, `synchronize_trajectories`
  and `straighten_trajectories` in `postprocess.py`, `rmse` and `mie` in
  `metrics.py`).

Python strings are modelled as `List Char`, numpy arrays as lists, Python
`float` arithmetic as exact arithmetic over `ℚ` (or over `ℝ` where square
roots appear), and raised exceptions as the `Except.error` branch of
`Except String`.
-/

namespace RepoModel

/-! ### Generic helpers for the Python/numpy primitives used by the codec -/

instance {ε α : Type} [DecidableEq ε] [DecidableEq α] : DecidableEq (Except ε α)
  | .ok a, .ok b => decidable_of_iff (a = b) (by simp)
  | .error a, .error b => decidable_of_iff (a = b) (by simp)
  | .ok _, .error _ => .isFalse (by simp)
  | .error _, .ok _ => .isFalse (by simp)

/-- Accumulator pass of the whitespace tokenizer: `acc` holds the characters of
the token currently being read, in reverse order. -/
def pySplitGo (acc : List Char) : List Char → List (List Char)
  | [] => if acc = [] then [] else [acc.reverse]
  | c :: rest =>
    if c.isWhitespace then
      if acc = [] then pySplitGo [] rest else acc.reverse :: pySplitGo [] rest
    else pySplitGo (c :: acc) rest

/-- Whitespace tokenizer modelling Python `str.split()` with no arguments:
it skips runs of whitespace and returns the maximal non-whitespace chunks,
discarding empty pieces. -/
def pySplit (cs : List Char) : List (List Char) := pySplitGo [] cs

/-- Value of a decimal digit character (`'0'` has code 48). -/
def charVal (c : Char) : Nat := c.toNat - 48

/-- Continuation of a Python `int()` numeral after its leading digit: a
sequence of digits in which a single underscore may appear between two digits
(`int("1_0")` is 10, while `"1_"`, `"_1"` and `"1__0"` are rejected). -/
def pyNumeralRest : List Char → Bool
  | [] => true
  | [c] => c != '_' && c.isDigit
  | c :: d :: rest2 =>
    if c = '_' then d.isDigit && pyNumeralRest rest2
    else c.isDigit && pyNumeralRest (d :: rest2)

/-- Syntax of an unsigned Python `int()` numeral: a leading decimal digit
followed by digits with optional single underscores between them.  CPython
additionally accepts non-ASCII Unicode decimal digits; those are outside this
model — every token produced or exercised here is ASCII. -/
def pyNumeral : List Char → Bool
  | [] => false
  | c :: rest => c.isDigit && pyNumeralRest rest

/-- Parser for an unsigned decimal numeral as Python `int(token)` reads it:
underscore separators are allowed between digits and ignored in the value. -/
def parseNat (cs : List Char) : Option Nat :=
  if pyNumeral cs then
    some ((cs.filter (fun c => c != '_')).foldl (fun n c => n * 10 + charVal c) 0)
  else none

/-- Parser modelling Python `int(token)` on a whitespace-free token: an
optional sign followed by a decimal numeral. -/
def parseInt : List Char → Option Int
  | [] => none
  | c :: rest =>
    if c = '-' then (parseNat rest).map (fun n => -(n : Int))
    else if c = '+' then (parseNat rest).map (fun n => (n : Int))
    else (parseNat (c :: rest)).map (fun n => (n : Int))

/-- Models `np.asarray(tokens, dtype=int)` on a list of string tokens: each
token is converted with Python `int()` — a malformed token raises
`ValueError` — and the arbitrary-precision result is then narrowed to int64,
numpy's default integer dtype, so a value outside `[-2^63, 2^63 - 1]` raises
`OverflowError`. -/
def parseIntList : List (List Char) → Except String (List Int)
  | [] => .ok []
  | t :: rest =>
    match parseInt t with
    | none => .error "invalid literal for int() with base 10"
    | some v =>
      if v < -(2 ^ 63) ∨ 2 ^ 63 - 1 < v then
        .error "Python int too large to convert to C long"
      else (parseIntList rest).map (fun vs => v :: vs)

/-- Elements at even positions, modelling the Python slice `s[0::2]`. -/
def evens {α : Type} : List α → List α
  | [] => []
  | [x] => [x]
  | x :: _ :: rest => x :: evens rest

/-- Elements at odd positions, modelling the Python slice `s[1::2]`. -/
def odds {α : Type} : List α → List α
  | [] => []
  | [_] => []
  | _ :: y :: rest => y :: odds rest

/-- Element-wise sum of two 1-d integer arrays under numpy broadcasting:
equal lengths add element-wise, a length-one array broadcasts against the
other, and any other combination of lengths raises a broadcast `ValueError`. -/
def broadcastAdd (a b : List Int) : Except String (List Int) :=
  if a.length = b.length then .ok (List.zipWith (fun x y => x + y) a b)
  else if a.length = 1 then .ok (b.map (fun y => a.headD 0 + y))
  else if b.length = 1 then .ok (a.map (fun x => x + b.headD 0))
  else .error "operands could not be broadcast together"

/-- Effective bound of a Python slice index `i` on a sequence of length `n`:
a negative index counts from the end, and both directions clamp to `[0, n]`. -/
def sliceIdx (n : Nat) (i : Int) : Nat :=
  if i < 0 then ((n : Int) + i).toNat else min i.toNat n

/-- Models the numpy slice assignment `img[low:high] = v` on a flat array:
entries whose index lies in the clamped slice range become `v` and all other
entries are unchanged. -/
def sliceAssign (img : List Nat) (low high : Int) (v : Nat) : List Nat :=
  (List.range img.length).map fun j =>
    if sliceIdx img.length low ≤ j ∧ j < sliceIdx img.length high then v
    else img.getD j 0

/-- Models `arr.reshape(shape)` of a flat array of length `h * w`: entry
`(r, c)` of the result is flat entry `r * w + c` (row-major order). -/
def reshape (l : List Nat) (h w : Nat) : List (List Nat) :=
  (List.range h).map fun r => (List.range w).map fun c => l.getD (r * w + c) 0

/-! ### The mask codec itself (cigarette_butt_segmentation/lib/utils.py) -/

/-- Model of `decode_rle(rle_mask, shape)`:

```python
s = rle_mask.split()
starts, lengths = [np.asarray(x, dtype=int) for x in (s[0:][::2], s[1:][::2])]
starts -= 1
ends = starts + lengths
img = np.zeros(shape[0]*shape[1], dtype=np.uint8)
for low, high in zip(starts, ends):
    img[low:high] = 255
return img.reshape(shape)
```

`zip` truncates to the shorter of its arguments, as in Python. -/
def decode_rle (rle_mask : List Char) (shape : Nat × Nat := (512, 512)) :
    Except String (List (List Nat)) := do
  let s := pySplit rle_mask
  let starts0 ← parseIntList (evens s)
  let lengths ← parseIntList (odds s)
  let starts := starts0.map (fun x => x - 1)
  let ends ← broadcastAdd starts lengths
  let img := (starts.zip ends).foldl
    (fun im p => sliceAssign im p.1 p.2 255) (List.replicate (shape.1 * shape.2) 0)
  return reshape img shape.1 shape.2

/-- Boundary scan for `encode_rle`: with `prev` the previous padded pixel value
and `i` the 1-based index of the current pixel, this returns the ascending list
of 1-based indices at which consecutive padded pixels differ.  Thus
`rleSeq 0 1 (flat ++ [0])` computes `np.where(pixels[1:] != pixels[:-1])[0] + 1`
for `pixels = [0] ++ flat ++ [0]`. -/
def rleSeq (prev : Nat) (i : Nat) : List Nat → List Nat
  | [] => []
  | x :: rest => if x ≠ prev then i :: rleSeq x (i + 1) rest else rleSeq x (i + 1) rest

/-- In-place run subtraction `runs[1::2] -= runs[::2]` on the flat boundary
list: each consecutive (start, end) pair becomes (start, end - start).  For a
two-valued mask the boundary list always has even length; on a singleton the
numpy statement is a size-1 broadcast no-op, which this matches. -/
def pairSub : List Nat → List Nat
  | s :: e :: rest => s :: (e - s) :: pairSub rest
  | rest => rest

/-- Space-join modelling `' '.join(tokens)`. -/
def joinSp : List (List Char) → List Char
  | [] => []
  | [t] => t
  | t :: rest => t ++ ' ' :: joinSp rest

/-- Model of `encode_rle(mask)`:

```python
pixels = mask.flatten()
pixels = np.concatenate([[0], pixels, [0]])
runs = np.where(pixels[1:] != pixels[:-1])[0] + 1
runs[1::2] -= runs[::2]
return ' '.join(str(x) for x in runs)
```
-/
def encode_rle (mask : List (List Nat)) : List Char :=
  let pixels := mask.flatten ++ [0]
  let runs := rleSeq 0 1 pixels
  joinSp ((pairSub runs).map (fun x => Nat.toDigits 10 x))

/-- A mask is two-valued with background 0 and foreground `v` when every pixel
is either `0` or `v`. -/
def twoValued (mask : List (List Nat)) (v : Nat) : Prop :=
  ∀ x ∈ mask.flatten, x = 0 ∨ x = v

/-- A 2-d mask has shape `(h, w)` when it has `h` rows, each of length `w`. -/
def hasShape (mask : List (List Nat)) (h w : Nat) : Prop :=
  mask.length = h ∧ ∀ row ∈ mask, row.length = w

instance (mask : List (List Nat)) (v : Nat) : Decidable (twoValued mask v) := by
  unfold twoValued; infer_instance

instance (mask : List (List Nat)) (h w : Nat) : Decidable (hasShape mask h w) := by
  unfold hasShape; infer_instance

/-! ### Dice metrics (cigarette_butt_segmentation/lib/metrics.py) -/

/-- Smoothing constant `EPS = 1e-10` from metrics.py, as an exact rational. -/
def EPS : ℚ := 1 / 10000000000

/-- Number of `true` entries in the boolean cast of a mask, i.e.
`mask.astype(bool).sum()`. -/
def boolSum (mask : List (List Nat)) : Nat :=
  mask.flatten.countP (fun x => x != 0)

/-- Number of positions at which both boolean casts hold, i.e.
`(true & pred).sum()` for same-shape masks. -/
def boolInter (t p : List (List Nat)) : Nat :=
  (t.flatten.zip p.flatten).countP (fun q => q.1 != 0 && q.2 != 0)

/-- Model of `dice(true, pred)`:

```python
true = true.astype(bool); pred = pred.astype(bool)
intersection = (true & pred).sum()
im_sum = true.sum() + pred.sum()
return 2.0 * intersection / (im_sum + EPS)
```
-/
def dice (t p : List (List Nat)) : ℚ :=
  2 * (boolInter t p : ℚ) / ((boolSum t : ℚ) + (boolSum p : ℚ) + EPS)

/-- The dynamic type of an argument of `get_dice`: a single mask or a list of
masks. -/
inductive MaskArg : Type
  | single (m : List (List Nat))
  | masks (ms : List (List (List Nat)))

/-- Discriminator for `MaskArg`, mirroring `isinstance(arg, list)`. -/
def MaskArg.isList : MaskArg → Bool
  | .single _ => false
  | .masks _ => true

/-- A numpy float that may be `nan`: `np.mean([])` silently yields `nan`. -/
inductive NpQ : Type
  | nan
  | val (q : ℚ)
deriving DecidableEq

/-- Model of `np.mean(xs)` for a list of exact rationals. -/
def npMeanQ (xs : List ℚ) : NpQ :=
  if xs.length = 0 then .nan else .val (xs.sum / xs.length)

/-- Model of `get_dice(true, pred)`: the leading
`assert type(true) == type(pred)` fails on mismatched argument types before any
score is computed; a pair of lists is folded with `np.mean` over the per-pair
dice scores (`zip` truncates as in Python); a pair of masks is scored with
`dice`. -/
def get_dice : MaskArg → MaskArg → Except String NpQ
  | .single t, .single p => .ok (.val (dice t p))
  | .masks ts, .masks ps => .ok (npMeanQ ((ts.zip ps).map (fun q => dice q.1 q.2)))
  | _, _ => .error "Types of true and pred should be the same."

/-! ### Trajectory alignment (trajectory_prediction/lib) -/

/-- A trajectory sample: one dataframe row `(tmsp, x, y)`. -/
structure Sample where
  t : ℚ
  x : ℚ
  y : ℚ
deriving DecidableEq

/-- A trajectory: a dataframe with columns `tmsp`, `x`, `y`. -/
abbrev Traj := List Sample

/-- One point of `np.interp(u, xp, fp)` for ascending sample points `xp`, given
here zipped with their values: piecewise-linear interpolation, clamping to the
boundary values outside the sampled range.  Callers guarantee the list is
nonempty (`np.interp` raises otherwise; see `extend_arr`). -/
def interpPoint (u : ℚ) : List (ℚ × ℚ) → ℚ
  | [] => 0
  | [(_, y1)] => y1
  | (x1, y1) :: (x2, y2) :: rest =>
    if u < x1 then y1
    else if u ≤ x2 then y1 + (y2 - y1) * (u - x1) / (x2 - x1)
    else interpPoint u ((x2, y2) :: rest)

/-- Model of `extend_arr(t, arr, t_inter=t_inter)` from preprocess.py in the
`t_inter is not None` form used by `synchronize_trajectories`: returns
`(t_inter, np.interp(t_inter, t, arr))`.  `np.interp` raises `ValueError` when
the sample-point array `t` is empty. -/
def extend_arr (t arr t_inter : List ℚ) : Except String (List ℚ × List ℚ) :=
  if t.isEmpty then .error "array of sample points is empty"
  else .ok (t_inter, t_inter.map (fun u => interpPoint u (t.zip arr)))

/-- Model of `extend_data(data, ..., t_inter=t_inter)` for a trajectory
dataframe: each coordinate column is interpolated onto `t_inter`, which becomes
the timestamp column of the resulting dataframe. -/
def extend_data (data : Traj) (t_inter : List ℚ) : Except String Traj := do
  let ts := data.map Sample.t
  let (et, ex) ← extend_arr ts (data.map Sample.x) t_inter
  let (_, ey) ← extend_arr ts (data.map Sample.y) t_inter
  return (et.zip (ex.zip ey)).map (fun q => ⟨q.1, q.2.1, q.2.2⟩)

/-- Model of `synchronize_trajectories(trajectory_true, trajectory_pred)`:
re-samples the predicted trajectory onto the ground-truth timestamps and
returns the ground truth unchanged. -/
def synchronize_trajectories (tt tp : Traj) : Except String (Traj × Traj) := do
  let tp' ← extend_data tp (tt.map Sample.t)
  return (tt, tp')

/-- Euclidean distance between two planar points with exact coordinates and a
real square root, modelling `np.sqrt((x1 - x2) ** 2 + (y1 - y2) ** 2)`. -/
noncomputable def eDist (x1 y1 x2 y2 : ℚ) : ℝ :=
  Real.sqrt (((x1 - x2) ^ 2 + (y1 - y2) ^ 2 : ℚ) : ℝ)

/-- Model of `np.cumsum`, carrying the running total `acc`. -/
def cumsum {α : Type} [Add α] (acc : α) : List α → List α
  | [] => []
  | x :: xs => (acc + x) :: cumsum (acc + x) xs

/-- Model of `straighten_trajectories(trajectory_true, trajectory_pred)`:
raises a `ValueError` when the sample counts differ; otherwise returns the
cumulative ground-truth arc length `x = np.cumsum([0] + segment_lengths)` and
the pointwise distances `y` between the two trajectories. -/
noncomputable def straighten_trajectories (tt tp : Traj) :
    Except String (List ℝ × List ℝ) :=
  if tt.length ≠ tp.length then
    .error "Shape of true and pred array should be the same."
  else
    .ok (cumsum 0 ((0 : ℝ) :: (tt.zip tt.tail).map (fun q => eDist q.1.x q.1.y q.2.x q.2.y)),
      (tt.zip tp).map (fun q => eDist q.1.x q.1.y q.2.x q.2.y))

/-- A numpy float result: exact real value, `nan`, or a signed infinity. -/
inductive NpFloat : Type
  | val (r : ℝ)
  | nan
  | pinf
  | ninf

/-- Model of a numpy float division: division by zero does not raise; `0/0`
silently yields `nan` and `±x/0` a signed infinity. -/
noncomputable def npDiv (a b : ℝ) : NpFloat :=
  if b = 0 then (if a = 0 then .nan else if 0 < a then .pinf else .ninf)
  else .val (a / b)

/-- Model of `mie(trajectory_true, trajectory_pred)`:

```python
trajectory_true, trajectory_pred = synchronize_trajectories(...)
x, y = straighten_trajectories(...)
error = ((y[1:] + y[:-1]) / 2 * (x[1:] - x[:-1])).sum() / x[-1]
```

with numpy float division semantics for the final division by `x[-1]`. -/
noncomputable def mie (tt tp : Traj) : Except String NpFloat := do
  let (tt', tp') ← synchronize_trajectories tt tp
  let (x, y) ← straighten_trajectories tt' tp'
  let num := (((y.tail.zip y).zip (x.tail.zip x)).map
    (fun q => (q.1.1 + q.1.2) / 2 * (q.2.1 - q.2.2))).sum
  match x.getLast? with
  | none => .error "index -1 is out of bounds"
  | some den => return npDiv num den

/-- The dynamic type of an argument of `rmse`: a trajectory dataframe or a
plain 1-d array. -/
inductive TrajArg : Type
  | frame (df : Traj)
  | arr (xs : List ℚ)

/-- Discriminator for `TrajArg`, mirroring `isinstance(arg, pd.DataFrame)`. -/
def TrajArg.isFrame : TrajArg → Bool
  | .frame _ => true
  | .arr _ => false

/-- Model of `rmse(true_data, pred_data)`: a `TypeError` on mismatched argument
types before anything is computed; for dataframes, synchronize and take the
root mean square of the pointwise distances; for plain arrays,
`sqrt(mean_squared_error(a, b))`, where sklearn raises on empty or
length-mismatched inputs. -/
noncomputable def rmse : TrajArg → TrajArg → Except String ℝ
  | .frame tt, .frame tp => do
    let (tt', tp') ← synchronize_trajectories tt tp
    let d := (tt'.zip tp').map (fun q => eDist q.1.x q.1.y q.2.x q.2.y)
    if d.length = 0 then .error "Found array with 0 sample(s)"
    else .ok (Real.sqrt ((d.map (fun v => v ^ 2)).sum / (d.length : ℝ)))
  | .arr a, .arr b =>
    if a.length ≠ b.length then
      .error "Found input variables with inconsistent numbers of samples"
    else if a.length = 0 then .error "Found array with 0 sample(s)"
    else .ok (Real.sqrt (((a.zip b).map
      (fun q => ((q.1 - q.2 : ℚ) : ℝ) ^ 2)).sum / (a.length : ℝ)))
  | _, _ => .error "True and pred data should have the same type."

/-! ### Proof devices: reference forms of the vectorised numpy expressions -/

/-- Decimal digit characters of `n`, most significant first: the reference form
of `Nat.toDigits 10 n`. -/
def digitsOf (n : Nat) : List Char :=
  if h : n < 10 then [Nat.digitChar n]
  else digitsOf (n / 10) ++ [Nat.digitChar (n % 10)]
termination_by n
decreasing_by exact Nat.div_lt_self (by omega) (by norm_num)

/-- Boundary scan of the boolean support of a mask: `rleSeq` depends on a
two-valued pixel list only through which pixels are nonzero, and on the support
the trailing sentinel comparison degenerates to emitting a final boundary when
the last support bit is set. -/
def rleSeqB (prev : Bool) (i : Nat) : List Bool → List Nat
  | [] => if prev then [i] else []
  | x :: rest => if x ≠ prev then i :: rleSeqB x (i + 1) rest else rleSeqB x (i + 1) rest

/-- The (start, length) run pairs encoded in a flat boundary list. -/
def runPairs : List Nat → List (Nat × Nat)
  | s :: e :: rest => (s, e - s) :: runPairs rest
  | _ => []

/-- Pixel `j` (0-based) lies inside the 1-based run `pr = (start, length)`. -/
def coveredRun (pr : Nat × Nat) (j : Nat) : Prop :=
  pr.1 ≤ j + 1 ∧ j + 1 < pr.1 + pr.2

/-- Pixel `j` lies inside at least one of the runs. -/
def coveredRuns (prs : List (Nat × Nat)) (j : Nat) : Prop :=
  ∃ pr ∈ prs, coveredRun pr j

/-- Boolean form of "index `j` lies in the clamped slice `[low, high)` of a
length-`n` array". -/
def coveredB (n : Nat) (pr : Int × Int) (j : Nat) : Bool :=
  decide (sliceIdx n pr.1 ≤ j) && decide (j < sliceIdx n pr.2)

/-- A token is convertible by `np.asarray(tokens, dtype=int)`: it is a valid
`int()` numeral whose value fits in int64. -/
def tokOk (t : List Char) : Prop :=
  ∃ v, parseInt t = some v ∧ -(2 ^ 63) ≤ v ∧ v ≤ 2 ^ 63 - 1

/-- A token makes `np.asarray(tokens, dtype=int)` raise: either `int()` rejects
it (`ValueError`) or the value is outside int64 (`OverflowError`). -/
def tokBad (t : List Char) : Prop :=
  parseInt t = none ∨ ∃ v, parseInt t = some v ∧ (v < -(2 ^ 63) ∨ 2 ^ 63 - 1 < v)

instance (t : List Char) : Decidable (tokOk t) := by
  unfold tokOk
  cases parseInt t with
  | none =>
    refine isFalse ?_
    rintro ⟨v, hv, _⟩
    exact Option.noConfusion hv
  | some v =>
    by_cases hr : -(2 ^ 63) ≤ v ∧ v ≤ 2 ^ 63 - 1
    · exact isTrue ⟨v, rfl, hr.1, hr.2⟩
    · refine isFalse ?_
      rintro ⟨u, hu, h1, h2⟩
      cases hu
      exact hr ⟨h1, h2⟩

instance (t : List Char) : Decidable (tokBad t) := by
  unfold tokBad
  cases parseInt t with
  | none => exact isTrue (Or.inl rfl)
  | some v =>
    by_cases hout : v < -(2 ^ 63) ∨ 2 ^ 63 - 1 < v
    · exact isTrue (Or.inr ⟨v, rfl, hout⟩)
    · refine isFalse ?_
      rintro (hnone | ⟨u, hu, hout'⟩)
      · exact Option.noConfusion hnone
      · cases hu
        exact hout hout'

/-! ## Lemma development -/

/-- Two-step list induction matching the recursion of `evens`, `odds`,
`pairSub` and `runPairs`. -/
theorem twoStep {α : Type} {motive : List α → Prop} (h0 : motive [])
    (h1 : ∀ x, motive [x])
    (h2 : ∀ x y rest, motive rest → motive (x :: y :: rest)) :
    ∀ l, motive l
  | [] => h0
  | [x] => h1 x
  | x :: y :: rest => h2 x y rest (twoStep h0 h1 h2 rest)

theorem evens_map {α β : Type} (f : α → β) :
    ∀ l : List α, evens (l.map f) = (evens l).map f := by
  refine twoStep rfl (fun x => rfl) ?_
  intro x y rest ih
  simp only [List.map_cons, evens, ih]

theorem odds_map {α β : Type} (f : α → β) :
    ∀ l : List α, odds (l.map f) = (odds l).map f := by
  refine twoStep rfl (fun x => rfl) ?_
  intro x y rest ih
  simp only [List.map_cons, odds, ih]

theorem evens_length {α : Type} :
    ∀ l : List α, (evens l).length = (l.length + 1) / 2 := by
  refine twoStep (by norm_num [evens]) (fun x => by norm_num [evens]) ?_
  intro x y rest ih
  simp only [evens, List.length_cons, ih]
  omega

theorem odds_length {α : Type} :
    ∀ l : List α, (odds l).length = l.length / 2 := by
  refine twoStep (by norm_num [odds]) (fun x => by norm_num [odds]) ?_
  intro x y rest ih
  simp only [odds, List.length_cons, ih]
  omega

theorem mem_of_mem_evens {α : Type} {x : α} :
    ∀ {l : List α}, x ∈ evens l → x ∈ l := by
  have : ∀ l : List α, x ∈ evens l → x ∈ l := by
    refine twoStep (by simp [evens]) (fun y => by simp [evens]) ?_
    intro a b rest ih h
    simp only [evens, List.mem_cons] at h ⊢
    rcases h with h | h
    · exact Or.inl h
    · exact Or.inr (Or.inr (ih h))
  exact fun {l} => this l

theorem mem_of_mem_odds {α : Type} {x : α} :
    ∀ {l : List α}, x ∈ odds l → x ∈ l := by
  have : ∀ l : List α, x ∈ odds l → x ∈ l := by
    refine twoStep (by simp [odds]) (fun y => by simp [odds]) ?_
    intro a b rest ih h
    simp only [odds, List.mem_cons] at h ⊢
    rcases h with h | h
    · exact Or.inr (Or.inl h)
    · exact Or.inr (Or.inr (ih h))
  exact fun {l} => this l

theorem mem_evens_or_odds {α : Type} {x : α} :
    ∀ {l : List α}, x ∈ l → x ∈ evens l ∨ x ∈ odds l := by
  have : ∀ l : List α, x ∈ l → x ∈ evens l ∨ x ∈ odds l := by
    refine twoStep (by simp) (fun y h => Or.inl (by simpa [evens] using h)) ?_
    intro a b rest ih h
    simp only [List.mem_cons] at h
    rcases h with h | h | h
    · exact Or.inl (by simp [evens, h])
    · exact Or.inr (by simp [odds, h])
    · rcases ih h with h' | h'
      · exact Or.inl (by simp [evens, h'])
      · exact Or.inr (by simp [odds, h'])
  exact fun {l} => this l

theorem parseIntList_ok_of_all :
    ∀ l : List (List Char), (∀ t ∈ l, tokOk t) →
      ∃ vs, parseIntList l = .ok vs ∧ vs.length = l.length := by
  intro l
  induction l with
  | nil => exact fun _ => ⟨[], rfl, rfl⟩
  | cons t rest ih =>
    intro h
    obtain ⟨v, hv, hlo, hhi⟩ := h t (by simp)
    obtain ⟨vs, hvs, hlen⟩ := ih (fun u hu => h u (by simp [hu]))
    refine ⟨v :: vs, ?_, by simp [hlen]⟩
    have hrange : ¬(v < -(2 ^ 63) ∨ (2 : Int) ^ 63 - 1 < v) := by
      push_neg
      exact ⟨hlo, hhi⟩
    simp only [parseIntList, hv]
    rw [if_neg hrange, hvs]
    rfl

theorem parseIntList_error_of_mem :
    ∀ (l : List (List Char)) (t : List Char), t ∈ l → tokBad t →
      ∃ e, parseIntList l = .error e := by
  intro l
  induction l with
  | nil => intro t h; simp at h
  | cons u rest ih =>
    intro t ht hbad
    rcases List.mem_cons.1 ht with rfl | ht'
    · rcases hbad with hnone | ⟨v, hv, hout⟩
      · refine ⟨"invalid literal for int() with base 10", ?_⟩
        simp only [parseIntList, hnone]
      · refine ⟨"Python int too large to convert to C long", ?_⟩
        simp only [parseIntList, hv]
        rw [if_pos hout]
    · cases hu : parseInt u with
      | none =>
        refine ⟨"invalid literal for int() with base 10", ?_⟩
        simp only [parseIntList, hu]
      | some v =>
        by_cases hout : v < -(2 ^ 63) ∨ (2 : Int) ^ 63 - 1 < v
        · refine ⟨"Python int too large to convert to C long", ?_⟩
          simp only [parseIntList, hu]
          rw [if_pos hout]
        · obtain ⟨e, he⟩ := ih t ht' hbad
          refine ⟨e, ?_⟩
          simp only [parseIntList, hu]
          rw [if_neg hout, he]
          rfl

/-! ### The slice-assignment fold paints exactly the covered pixels -/

theorem getD_range_map {α : Type} (f : Nat → α) (d : α) {j n : Nat} (h : j < n) :
    (((List.range n).map f).getD j d) = f j := by
  simp [List.getD_eq_getElem?_getD, List.getElem?_map, List.getElem?_range h]

theorem getD_range_map_ge {α : Type} (f : Nat → α) (d : α) {j n : Nat} (h : n ≤ j) :
    (((List.range n).map f).getD j d) = d := by
  rw [List.getD_eq_default]
  simpa using h

theorem coveredB_iff {n : Nat} {pr : Int × Int} {j : Nat} :
    coveredB n pr j = true ↔ sliceIdx n pr.1 ≤ j ∧ j < sliceIdx n pr.2 := by
  simp [coveredB]

theorem sliceAssign_length (img : List Nat) (lo hi : Int) (v : Nat) :
    (sliceAssign img lo hi v).length = img.length := by
  simp [sliceAssign]

theorem sliceAssign_getD (img : List Nat) (lo hi : Int) (v : Nat) {j : Nat}
    (h : j < img.length) :
    (sliceAssign img lo hi v).getD j 0 =
      if coveredB img.length (lo, hi) j then v else img.getD j 0 := by
  unfold sliceAssign
  rw [getD_range_map _ _ h]
  by_cases hc : sliceIdx img.length lo ≤ j ∧ j < sliceIdx img.length hi
  · rw [if_pos hc, if_pos (coveredB_iff.2 hc)]
  · rw [if_neg hc, if_neg (fun hb => hc (coveredB_iff.1 hb))]

theorem fold_sliceAssign_length :
    ∀ (prs : List (Int × Int)) (img : List Nat),
      (prs.foldl (fun im p => sliceAssign im p.1 p.2 255) img).length = img.length := by
  intro prs
  induction prs with
  | nil => intro img; rfl
  | cons p ps ih => intro img; rw [List.foldl_cons, ih, sliceAssign_length]

theorem fold_sliceAssign_getD :
    ∀ (prs : List (Int × Int)) (img : List Nat) (j : Nat), j < img.length →
      (prs.foldl (fun im p => sliceAssign im p.1 p.2 255) img).getD j 0 =
        if prs.any (fun p => coveredB img.length p j) then 255 else img.getD j 0 := by
  intro prs
  induction prs with
  | nil => intro img j h; simp
  | cons p ps ih =>
    intro img j h
    rw [List.foldl_cons,
      ih _ j (by rw [sliceAssign_length]; exact h)]
    rw [sliceAssign_length, sliceAssign_getD img p.1 p.2 255 h]
    have hpp : coveredB img.length (p.1, p.2) j = coveredB img.length p j := rfl
    rw [hpp]
    cases hb : coveredB img.length p j <;>
      cases ha : ps.any (fun q => coveredB img.length q j) <;>
        simp [List.any_cons, hb, ha]

theorem getD_replicate_zero {n j : Nat} : (List.replicate n (0 : Nat)).getD j 0 = 0 := by
  rw [List.getD_eq_getElem?_getD, List.getElem?_replicate]
  split <;> rfl

theorem rc_lt_mul {r c h w : Nat} (hr : r < h) (hc : c < w) : r * w + c < h * w := by
  calc r * w + c < r * w + w := by omega
  _ = (r + 1) * w := by ring
  _ ≤ h * w := Nat.mul_le_mul_right w hr

/-! ### Reduction of the decode pipeline -/

theorem except_bind_ok {ε α β : Type} (a : α) (f : α → Except ε β) :
    (Except.ok a >>= f) = f a := rfl

theorem except_bind_err {ε α β : Type} (e : ε) (f : α → Except ε β) :
    ((Except.error e : Except ε α) >>= f) = Except.error e := rfl

theorem except_pure {ε α : Type} (a : α) : (pure a : Except ε α) = Except.ok a := rfl

theorem broadcastAdd_same {a b : List Int} (h : a.length = b.length) :
    broadcastAdd a b = .ok (List.zipWith (fun x y => x + y) a b) := by
  unfold broadcastAdd
  rw [if_pos h]

theorem broadcastAdd_left_one {a b : List Int} (h : a.length ≠ b.length)
    (ha : a.length = 1) : broadcastAdd a b = .ok (b.map (fun y => a.headD 0 + y)) := by
  unfold broadcastAdd
  rw [if_neg h, if_pos ha]

theorem broadcastAdd_right_one {a b : List Int} (h : a.length ≠ b.length)
    (ha : a.length ≠ 1) (hb : b.length = 1) :
    broadcastAdd a b = .ok (a.map (fun x => x + b.headD 0)) := by
  unfold broadcastAdd
  rw [if_neg h, if_neg ha, if_pos hb]

theorem broadcastAdd_error {a b : List Int} (h : a.length ≠ b.length)
    (ha : a.length ≠ 1) (hb : b.length ≠ 1) :
    broadcastAdd a b = .error "operands could not be broadcast together" := by
  unfold broadcastAdd
  rw [if_neg h, if_neg ha, if_neg hb]

theorem decode_rle_eq_ok {s : List Char} {shape : Nat × Nat}
    {starts0 lengths : List Int}
    (hs : parseIntList (evens (pySplit s)) = .ok starts0)
    (hl : parseIntList (odds (pySplit s)) = .ok lengths)
    (hlen : starts0.length = lengths.length) :
    decode_rle s shape = .ok (reshape
      (((starts0.map (fun x => x - 1)).zip
          (List.zipWith (fun x y => x + y) (starts0.map (fun x => x - 1)) lengths)).foldl
        (fun im p => sliceAssign im p.1 p.2 255)
        (List.replicate (shape.1 * shape.2) 0)) shape.1 shape.2) := by
  have hb : broadcastAdd (starts0.map (fun x => x - 1)) lengths =
      .ok (List.zipWith (fun x y => x + y) (starts0.map (fun x => x - 1)) lengths) :=
    broadcastAdd_same (by simp [hlen])
  simp only [decode_rle, hs, hl, hb, except_bind_ok, except_pure]

theorem decode_rle_eq_ok_of_bro {s : List Char} {shape : Nat × Nat}
    {starts0 lengths es : List Int}
    (hs : parseIntList (evens (pySplit s)) = .ok starts0)
    (hl : parseIntList (odds (pySplit s)) = .ok lengths)
    (hbro : broadcastAdd (starts0.map (fun x => x - 1)) lengths = .ok es) :
    decode_rle s shape = .ok (reshape
      (((starts0.map (fun x => x - 1)).zip es).foldl
        (fun im p => sliceAssign im p.1 p.2 255)
        (List.replicate (shape.1 * shape.2) 0)) shape.1 shape.2) := by
  simp only [decode_rle, hs, hl, hbro, except_bind_ok, except_pure]

theorem decode_rle_error_evens {s : List Char} {shape : Nat × Nat} {e : String}
    (hs : parseIntList (evens (pySplit s)) = .error e) :
    decode_rle s shape = .error e := by
  simp only [decode_rle, hs, except_bind_err]

theorem decode_rle_error_odds {s : List Char} {shape : Nat × Nat}
    {starts0 : List Int} {e : String}
    (hs : parseIntList (evens (pySplit s)) = .ok starts0)
    (hl : parseIntList (odds (pySplit s)) = .error e) :
    decode_rle s shape = .error e := by
  simp only [decode_rle, hs, hl, except_bind_ok, except_bind_err]

theorem decode_rle_error_bro {s : List Char} {shape : Nat × Nat}
    {starts0 lengths : List Int} {e : String}
    (hs : parseIntList (evens (pySplit s)) = .ok starts0)
    (hl : parseIntList (odds (pySplit s)) = .ok lengths)
    (hbro : broadcastAdd (starts0.map (fun x => x - 1)) lengths = .error e) :
    decode_rle s shape = .error e := by
  simp only [decode_rle, hs, hl, hbro, except_bind_ok, except_bind_err]

theorem reshape_length (l : List Nat) (h w : Nat) : (reshape l h w).length = h := by
  simp [reshape]

theorem reshape_row_length {l : List Nat} {h w : Nat} {row : List Nat}
    (hr : row ∈ reshape l h w) : row.length = w := by
  obtain ⟨r, _, rfl⟩ := List.mem_map.1 hr
  simp

theorem reshape_mem_getD {l : List Nat} {h w : Nat} {row : List Nat} {px : Nat}
    (hr : row ∈ reshape l h w) (hp : px ∈ row) :
    ∃ j, px = l.getD j 0 := by
  obtain ⟨r, _, rfl⟩ := List.mem_map.1 hr
  obtain ⟨c, _, rfl⟩ := List.mem_map.1 hp
  exact ⟨r * w + c, rfl⟩

theorem fold_paint_entry_cases (prs : List (Int × Int)) (n j : Nat) :
    (prs.foldl (fun im p => sliceAssign im p.1 p.2 255)
      (List.replicate n 0)).getD j 0 = 0 ∨
    (prs.foldl (fun im p => sliceAssign im p.1 p.2 255)
      (List.replicate n 0)).getD j 0 = 255 := by
  rcases Nat.lt_or_ge j n with hj | hj
  · rw [fold_sliceAssign_getD prs _ j (by simpa using hj)]
    split
    · exact Or.inr rfl
    · exact Or.inl getD_replicate_zero
  · rw [List.getD_eq_default]
    · exact Or.inl rfl
    · rw [fold_sliceAssign_length]
      simpa using hj

theorem parse_evens_odds_ok {s : List Char}
    (hgood : ∀ t ∈ pySplit s, tokOk t) :
    ∃ starts0 lengths,
      parseIntList (evens (pySplit s)) = .ok starts0 ∧
      parseIntList (odds (pySplit s)) = .ok lengths ∧
      starts0.length = ((pySplit s).length + 1) / 2 ∧
      lengths.length = (pySplit s).length / 2 := by
  obtain ⟨starts0, hs, hslen⟩ := parseIntList_ok_of_all (evens (pySplit s))
    (fun t ht => hgood t (mem_of_mem_evens ht))
  obtain ⟨lengths, hl, hllen⟩ := parseIntList_ok_of_all (odds (pySplit s))
    (fun t ht => hgood t (mem_of_mem_odds ht))
  exact ⟨starts0, lengths, hs, hl, by rw [hslen, evens_length],
    by rw [hllen, odds_length]⟩

/-! ## Claim C9 -/

/-- C9 counterexample: the claim quantifies over every sequence of integer
pairs with starts at least 1, but numpy's int64 conversion overflows first:
the start token of 26 nines is a valid `int()` numeral with value at least 1,
yet `np.asarray(..., dtype=int)` raises `OverflowError` and `decode_rle` fails
instead of returning a clamped mask of the requested shape. -/
theorem decode_rle_overflow :
    parseInt (List.replicate 26 '9') = some 99999999999999999999999999 ∧
    (1 : Int) ≤ 99999999999999999999999999 ∧
    decode_rle (List.replicate 26 '9' ++ [' ', '1']) (2, 2) =
      .error "Python int too large to convert to C long" := by
  decide

/-- C9 (amended): for every RLE string whose tokens convert under
`np.asarray(..., dtype=int)` to an even-length sequence of (start, length)
int64 pairs with starts at least 1 and lengths at least 0, and every requested
shape `(h, w)`, `decode_rle` succeeds and returns a mask of exactly `h` rows
of `w` columns whose entries are only 0 or 255; runs reaching past the
flattened grid are silently clamped by the slice assignment and never raise an
out-of-range error.  (Start values beyond int64, which the original claim also
covered, instead raise `OverflowError` in the conversion.) -/
theorem decode_rle_safe (s : List Char) (h w : Nat) (starts0 lengths : List Int)
    (hs : parseIntList (evens (pySplit s)) = .ok starts0)
    (hl : parseIntList (odds (pySplit s)) = .ok lengths)
    (hlen : starts0.length = lengths.length)
    (_hpos : ∀ st ∈ starts0, 1 ≤ st) (_hnn : ∀ ln ∈ lengths, 0 ≤ ln) :
    ∃ M, decode_rle s (h, w) = .ok M ∧ M.length = h ∧
      (∀ row ∈ M, row.length = w) ∧ ∀ row ∈ M, ∀ px ∈ row, px = 0 ∨ px = 255 := by
  refine ⟨_, decode_rle_eq_ok hs hl hlen, reshape_length _ _ _,
    fun row hr => reshape_row_length hr, ?_⟩
  intro row hr px hp
  obtain ⟨j, rfl⟩ := reshape_mem_getD hr hp
  exact fold_paint_entry_cases _ _ _

/-- Witness for C9 at the concrete input `"1 10"` with shape `(2, 2)`: the
single run starts inside the 4-pixel grid and its length 10 reaches far past
it, so it is clamped and the whole grid is painted. -/
theorem decode_rle_safe_witness :
    ∃ M, decode_rle ['1', ' ', '1', '0'] (2, 2) = .ok M ∧ M.length = 2 ∧
      (∀ row ∈ M, row.length = 2) ∧ ∀ row ∈ M, ∀ px ∈ row, px = 0 ∨ px = 255 :=
  decode_rle_safe ['1', ' ', '1', '0'] 2 2 [1] [10]
    (by decide) (by decide) (by decide) (by decide) (by decide)

/-! ## Claim C3 -/

/-- C3 counterexample: the claim says `decode_rle` fails on every input whose
whitespace-separated token count is odd, but the three-token input `"1 2 3"`
parses into arrays of 2 starts and 1 length, numpy's size-1 broadcast accepts
them, and decoding silently succeeds. -/
theorem decode_rle_odd_tokens_ok :
    (pySplit ['1', ' ', '2', ' ', '3']).length % 2 = 1 ∧
    decode_rle ['1', ' ', '2', ' ', '3'] (2, 2) = .ok [[255, 255], [255, 255]] := by
  decide

/-- C3 (amended): `decode_rle` fails with a parse error whenever some token is
not a valid `int()` numeral, and with an `OverflowError` whenever some token's
value lies outside int64; it succeeds on every well-formed string with an even
count of int64-range integer tokens; for an odd token count of at least 5 it
fails (with a broadcast error, not a parse error); and for the odd token
counts 1 and 3 it silently succeeds. -/
theorem decode_rle_malformed (s : List Char) (shape : Nat × Nat) :
    ((∃ t ∈ pySplit s, parseInt t = none) → (decode_rle s shape).isOk = false)
    ∧ ((∃ t ∈ pySplit s, tokBad t) → (decode_rle s shape).isOk = false)
    ∧ ((∀ t ∈ pySplit s, tokOk t) → (pySplit s).length % 2 = 0 →
        (decode_rle s shape).isOk = true)
    ∧ ((∀ t ∈ pySplit s, tokOk t) → (pySplit s).length % 2 = 1 →
        5 ≤ (pySplit s).length → (decode_rle s shape).isOk = false)
    ∧ ((∀ t ∈ pySplit s, tokOk t) → (pySplit s).length % 2 = 1 →
        (pySplit s).length ≤ 3 → (decode_rle s shape).isOk = true) := by
  have herr : ∀ t ∈ pySplit s, tokBad t → (decode_rle s shape).isOk = false := by
    intro t ht hbad
    rcases mem_evens_or_odds ht with h' | h'
    · obtain ⟨e, he⟩ := parseIntList_error_of_mem _ t h' hbad
      rw [decode_rle_error_evens he]
      rfl
    · cases he : parseIntList (evens (pySplit s)) with
      | error e => rw [decode_rle_error_evens he]; rfl
      | ok starts0 =>
        obtain ⟨e, he2⟩ := parseIntList_error_of_mem _ t h' hbad
        rw [decode_rle_error_odds he he2]
        rfl
  refine ⟨?_, ?_, ?_, ?_, ?_⟩
  · rintro ⟨t, ht, hbad⟩
    exact herr t ht (Or.inl hbad)
  · rintro ⟨t, ht, hbad⟩
    exact herr t ht hbad
  · intro hgood heven
    obtain ⟨starts0, lengths, hs, hl, hslen, hllen⟩ := parse_evens_odds_ok hgood
    rw [decode_rle_eq_ok hs hl (by omega)]
    rfl
  · intro hgood hodd h5
    obtain ⟨starts0, lengths, hs, hl, hslen, hllen⟩ := parse_evens_odds_ok hgood
    rw [decode_rle_error_bro hs hl
      (broadcastAdd_error (by simp only [List.length_map]; omega)
        (by simp only [List.length_map]; omega) (by omega))]
    rfl
  · intro hgood hodd h3
    obtain ⟨starts0, lengths, hs, hl, hslen, hllen⟩ := parse_evens_odds_ok hgood
    have : (pySplit s).length = 1 ∨ (pySplit s).length = 3 := by omega
    rcases this with h1 | h1
    · rw [decode_rle_eq_ok_of_bro hs hl
        (broadcastAdd_left_one (by simp only [List.length_map]; omega)
          (by simp only [List.length_map]; omega))]
      rfl
    · rw [decode_rle_eq_ok_of_bro hs hl
        (broadcastAdd_right_one (by simp only [List.length_map]; omega)
          (by simp only [List.length_map]; omega) (by omega))]
      rfl

/-- Witness for C3 at concrete inputs: a non-numeric token fails, an
out-of-int64 token fails, a well-formed even string succeeds, five tokens
fail, three tokens succeed. -/
theorem decode_rle_malformed_witness :
    (decode_rle ['1', ' ', 'a'] (2, 2)).isOk = false ∧
    (decode_rle (List.replicate 26 '9' ++ [' ', '1']) (2, 2)).isOk = false ∧
    (decode_rle ['1', ' ', '2'] (2, 2)).isOk = true ∧
    (decode_rle ['1', ' ', '2', ' ', '3', ' ', '4', ' ', '5'] (2, 2)).isOk = false ∧
    (decode_rle ['1', ' ', '2', ' ', '3'] (2, 2)).isOk = true :=
  ⟨(decode_rle_malformed ['1', ' ', 'a'] (2, 2)).1 (by decide),
   (decode_rle_malformed (List.replicate 26 '9' ++ [' ', '1']) (2, 2)).2.1
     (by decide),
   (decode_rle_malformed ['1', ' ', '2'] (2, 2)).2.2.1 (by decide) (by decide),
   (decode_rle_malformed ['1', ' ', '2', ' ', '3', ' ', '4', ' ', '5']
     (2, 2)).2.2.2.1 (by decide) (by decide) (by decide),
   (decode_rle_malformed ['1', ' ', '2', ' ', '3'] (2, 2)).2.2.2.2
     (by decide) (by decide) (by decide)⟩

/-! ## Claim C8 -/

/-- C8: whenever the true argument and the predicted argument of `get_dice` or
`rmse` have different dynamic types (a single mask versus a list of masks, a
dataframe versus a plain array), the call fails with the type-check error
raised before any score is computed. -/
theorem type_mismatch_errors :
    (∀ a b : MaskArg, a.isList ≠ b.isList →
      get_dice a b = .error "Types of true and pred should be the same.")
    ∧ ∀ c d : TrajArg, c.isFrame ≠ d.isFrame →
      rmse c d = .error "True and pred data should have the same type." := by
  constructor
  · intro a b hab
    cases a <;> cases b
    · exact absurd rfl hab
    · rfl
    · rfl
    · exact absurd rfl hab
  · intro c d hcd
    cases c <;> cases d
    · exact absurd rfl hcd
    · rfl
    · rfl
    · exact absurd rfl hcd

/-- Witness for C8 at concrete mismatched arguments. -/
theorem type_mismatch_errors_witness :
    get_dice (.single []) (.masks []) =
      .error "Types of true and pred should be the same." ∧
    rmse (.frame []) (.arr []) =
      .error "True and pred data should have the same type." :=
  ⟨type_mismatch_errors.1 (.single []) (.masks []) (by decide),
    type_mismatch_errors.2 (.frame []) (.arr []) (by decide)⟩

/-! ## Trajectory lemmas -/

theorem eDist_nonneg (x1 y1 x2 y2 : ℚ) : 0 ≤ eDist x1 y1 x2 y2 :=
  Real.sqrt_nonneg _

theorem cumsum_length {α : Type} [Add α] :
    ∀ (l : List α) (acc : α), (cumsum acc l).length = l.length := by
  intro l
  induction l with
  | nil => intro acc; rfl
  | cons x xs ih => intro acc; simp [cumsum, ih]

theorem cumsum_chain :
    ∀ l : List ℝ, (∀ z ∈ l, 0 ≤ z) → ∀ acc : ℝ, List.Chain' (· ≤ ·) (cumsum acc l) := by
  intro l
  induction l with
  | nil => intro _ acc; simp [cumsum]
  | cons x xs ih =>
    intro hnn acc
    have hxs : ∀ z ∈ xs, 0 ≤ z := fun z hz => hnn z (by simp [hz])
    cases xs with
    | nil => simp [cumsum]
    | cons z rest =>
      rw [cumsum, List.chain'_cons']
      refine ⟨?_, ?_⟩
      · intro b hb
        rw [cumsum] at hb
        simp only [List.head?_cons, Option.mem_def, Option.some.injEq] at hb
        have hz : 0 ≤ z := hxs z (by simp)
        rw [← hb]
        linarith
      · exact ih hxs (acc + x)

theorem extend_arr_ok {tp : Traj} (hp : tp ≠ []) (arr t_inter : List ℚ) :
    extend_arr (tp.map Sample.t) arr t_inter =
      .ok (t_inter, t_inter.map (fun u => interpPoint u ((tp.map Sample.t).zip arr))) := by
  unfold extend_arr
  rw [if_neg]
  cases tp with
  | nil => exact absurd rfl hp
  | cons a b => simp

/-! ## Claim C7 -/

/-- C7 counterexample: the claim quantifies over every pair of input
trajectories, but for an empty predicted trajectory `np.interp` raises
`ValueError: array of sample points is empty` instead of returning a
synchronized pair. -/
theorem synchronize_empty_pred_error :
    synchronize_trajectories [⟨0, 0, 0⟩] [] =
      .error "array of sample points is empty" := by decide

/-- C7 (amended): for every ground-truth trajectory and every nonempty
predicted trajectory, `synchronize_trajectories` returns the ground truth
unmodified together with a predicted trajectory whose sample count and
timestamp column are identical to those of the ground truth. -/
theorem synchronize_shape (tt tp : Traj) (hp : tp ≠ []) :
    ∃ tp', synchronize_trajectories tt tp = .ok (tt, tp') ∧
      tp'.length = tt.length ∧ tp'.map Sample.t = tt.map Sample.t := by
  have h1 := extend_arr_ok hp (tp.map Sample.x) (tt.map Sample.t)
  have h2 := extend_arr_ok hp (tp.map Sample.y) (tt.map Sample.t)
  have heq : synchronize_trajectories tt tp = .ok (tt,
      ((tt.map Sample.t).zip
        (((tt.map Sample.t).map fun u =>
            interpPoint u ((tp.map Sample.t).zip (tp.map Sample.x))).zip
         ((tt.map Sample.t).map fun u =>
            interpPoint u ((tp.map Sample.t).zip (tp.map Sample.y))))).map
        (fun q => (⟨q.1, q.2.1, q.2.2⟩ : Sample))) := by
    simp only [synchronize_trajectories, extend_data, h1, h2, except_bind_ok,
      except_pure]
  refine ⟨_, heq, ?_, ?_⟩
  · simp [List.length_zip]
  · rw [List.map_map]
    have : (Sample.t ∘ fun q : ℚ × ℚ × ℚ => (⟨q.1, q.2.1, q.2.2⟩ : Sample)) =
        Prod.fst := rfl
    rw [this, List.map_fst_zip]
    simp [List.length_zip]

/-- Witness for C7 at a concrete pair of one-sample trajectories. -/
theorem synchronize_shape_witness :
    ∃ tp', synchronize_trajectories [⟨0, 1, 2⟩] [⟨5, 3, 4⟩] = .ok ([⟨0, 1, 2⟩], tp') ∧
      tp'.length = ([⟨0, 1, 2⟩] : Traj).length ∧
      tp'.map Sample.t = ([⟨0, 1, 2⟩] : Traj).map Sample.t :=
  synchronize_shape [⟨0, 1, 2⟩] [⟨5, 3, 4⟩] (by decide)

/-! ## Claim C6 -/

/-- C6: for ground-truth timestamps `[0, 1, 2, 3]` and a predicted trajectory
with timestamps `[0, 3]` and coordinates `(0, 0)` and `(3, 3)`,
`synchronize_trajectories` interpolates the predicted coordinates at `t = 1`
and `t = 2` to exactly `(1, 1)` and `(2, 2)`. -/
theorem synchronize_interpolates_linearly :
    synchronize_trajectories
      [⟨0, 5, 7⟩, ⟨1, 6, 8⟩, ⟨2, 4, 9⟩, ⟨3, 1, 2⟩]
      [⟨0, 0, 0⟩, ⟨3, 3, 3⟩] =
    .ok ([⟨0, 5, 7⟩, ⟨1, 6, 8⟩, ⟨2, 4, 9⟩, ⟨3, 1, 2⟩],
      [⟨0, 0, 0⟩, ⟨1, 1, 1⟩, ⟨2, 2, 2⟩, ⟨3, 3, 3⟩]) := by
  norm_num [synchronize_trajectories, extend_data, extend_arr, interpPoint,
    except_bind_ok, except_pure, Sample.mk.injEq]

/-! ## Claim C5 -/

/-- C5: the spec requires `mie` to fail with an explicit domain error on a
degenerate ground truth, but the code silently evaluates `0 / 0`: for a
single-sample ground truth, and likewise for a two-sample ground truth of zero
total arc length, `mie` returns `nan` instead of raising. -/
theorem mie_degenerate_nan :
    mie [⟨0, 0, 0⟩] [⟨0, 0, 0⟩] = .ok .nan ∧
    mie [⟨0, 2, 3⟩, ⟨1, 2, 3⟩] [⟨0, 2, 3⟩, ⟨1, 2, 3⟩] = .ok .nan := by
  constructor
  · have hsync : synchronize_trajectories [(⟨0, 0, 0⟩ : Sample)] [⟨0, 0, 0⟩] =
        .ok ([⟨0, 0, 0⟩], [⟨0, 0, 0⟩]) := by decide
    have hstr : straighten_trajectories [(⟨0, 0, 0⟩ : Sample)] [⟨0, 0, 0⟩] =
        .ok ([0], [eDist 0 0 0 0]) := by
      unfold straighten_trajectories
      rw [if_neg (by simp)]
      simp [cumsum]
    simp [mie, hsync, hstr, except_bind_ok, except_pure, npDiv]
  · have hsync : synchronize_trajectories
        [(⟨0, 2, 3⟩ : Sample), ⟨1, 2, 3⟩] [⟨0, 2, 3⟩, ⟨1, 2, 3⟩] =
        .ok ([⟨0, 2, 3⟩, ⟨1, 2, 3⟩], [⟨0, 2, 3⟩, ⟨1, 2, 3⟩]) := by
      norm_num [synchronize_trajectories, extend_data, extend_arr, interpPoint,
        except_bind_ok, except_pure, Sample.mk.injEq]
    have hstr : straighten_trajectories
        [(⟨0, 2, 3⟩ : Sample), ⟨1, 2, 3⟩] [⟨0, 2, 3⟩, ⟨1, 2, 3⟩] =
        .ok ([0, 0], [eDist 2 3 2 3, eDist 2 3 2 3]) := by
      unfold straighten_trajectories
      rw [if_neg (by simp)]
      simp [cumsum, eDist]
    simp [mie, hsync, hstr, except_bind_ok, except_pure, npDiv]

/-! ## Claim C10 -/

/-- C10 counterexample: the claim quantifies over every synchronized pair with
equal sample counts, but on the empty pair `straighten_trajectories` returns a
one-element arc-length array `[0]`, which is longer than the empty ground
truth. -/
theorem straighten_empty_length :
    straighten_trajectories [] [] = .ok ([0], []) ∧
    [(0 : ℝ)].length ≠ ([] : Traj).length := by
  constructor
  · unfold straighten_trajectories
    rw [if_neg (by simp)]
    simp [cumsum]
  · decide

/-- C10 (amended): for every nonempty synchronized pair with equal sample
counts, `straighten_trajectories` succeeds; the arc-length array has the same
length as the ground truth, starts at 0 and is monotonically non-decreasing,
and the distance array is element-wise non-negative. -/
theorem straighten_invariants (tt tp : Traj) (hne : tt ≠ [])
    (hlen : tt.length = tp.length) :
    ∃ xs ys, straighten_trajectories tt tp = .ok (xs, ys) ∧
      xs.length = tt.length ∧ xs.head? = some 0 ∧
      List.Chain' (· ≤ ·) xs ∧ ∀ r ∈ ys, 0 ≤ r := by
  have hpos : 0 < tt.length := List.length_pos.2 hne
  have heq : straighten_trajectories tt tp = .ok
      (cumsum 0 ((0 : ℝ) :: (tt.zip tt.tail).map
        (fun q => eDist q.1.x q.1.y q.2.x q.2.y)),
       (tt.zip tp).map (fun q => eDist q.1.x q.1.y q.2.x q.2.y)) := by
    unfold straighten_trajectories
    rw [if_neg (by omega)]
  refine ⟨_, _, heq, ?_, ?_, ?_, ?_⟩
  · rw [cumsum_length]
    simp only [List.length_cons, List.length_map, List.length_zip,
      List.length_tail]
    omega
  · simp [cumsum]
  · apply cumsum_chain
    intro z hz
    rcases List.mem_cons.1 hz with rfl | hz'
    · exact le_refl 0
    · obtain ⟨q, _, rfl⟩ := List.mem_map.1 hz'
      exact eDist_nonneg _ _ _ _
  · intro r hr
    obtain ⟨q, _, rfl⟩ := List.mem_map.1 hr
    exact eDist_nonneg _ _ _ _

/-- Witness for C10 at a concrete two-sample pair. -/
theorem straighten_invariants_witness :
    ∃ xs ys, straighten_trajectories [⟨0, 0, 0⟩, ⟨1, 3, 4⟩] [⟨0, 0, 1⟩, ⟨1, 3, 5⟩] =
        .ok (xs, ys) ∧
      xs.length = ([⟨0, 0, 0⟩, ⟨1, 3, 4⟩] : Traj).length ∧ xs.head? = some 0 ∧
      List.Chain' (· ≤ ·) xs ∧ ∀ r ∈ ys, 0 ≤ r :=
  straighten_invariants [⟨0, 0, 0⟩, ⟨1, 3, 4⟩] [⟨0, 0, 1⟩, ⟨1, 3, 5⟩]
    (by decide) (by decide)

/-! ## Decimal rendering and parsing round trip -/

theorem digitsOf_toDigitsCore :
    ∀ (fuel n : Nat) (acc : List Char), n < fuel →
      Nat.toDigitsCore 10 fuel n acc = digitsOf n ++ acc := by
  intro fuel
  induction fuel with
  | zero => intro n acc h; omega
  | succ fuel ih =>
    intro n acc h
    rw [Nat.toDigitsCore]
    by_cases h10 : n < 10
    · have hdiv : n / 10 = 0 := Nat.div_eq_of_lt h10
      rw [if_pos hdiv, digitsOf, dif_pos h10, Nat.mod_eq_of_lt h10]
      rfl
    · have hdiv : n / 10 ≠ 0 := by
        intro h0
        exact h10 (by omega)
      have hlt : n / 10 < fuel := by
        have := Nat.div_lt_self (by omega : 0 < n) (by norm_num : 1 < 10)
        omega
      rw [if_neg hdiv, ih (n / 10) _ hlt]
      conv_rhs => rw [digitsOf]
      rw [dif_neg h10, List.append_assoc]
      rfl

theorem toDigits_eq_digitsOf (n : Nat) : Nat.toDigits 10 n = digitsOf n := by
  rw [Nat.toDigits, digitsOf_toDigitsCore (n + 1) n [] (Nat.lt_succ_self n),
    List.append_nil]

theorem digitChar_isDigit : ∀ m, m < 10 → (Nat.digitChar m).isDigit = true := by
  decide

theorem digitChar_val : ∀ m, m < 10 → charVal (Nat.digitChar m) = m := by
  decide

theorem digitsOf_ne_nil (n : Nat) : digitsOf n ≠ [] := by
  rw [digitsOf]
  split
  · simp
  · simp

theorem digitsOf_all_digit :
    ∀ n, ∀ c ∈ digitsOf n, c.isDigit = true := by
  intro n
  induction n using Nat.strong_induction_on with
  | _ n ih =>
    intro c hc
    rw [digitsOf] at hc
    split at hc
    · next h10 =>
      simp only [List.mem_singleton] at hc
      exact hc ▸ digitChar_isDigit n h10
    · next h10 =>
      rcases List.mem_append.1 hc with hc' | hc'
      · exact ih (n / 10) (Nat.div_lt_self (by omega) (by norm_num)) c hc'
      · simp only [List.mem_singleton] at hc'
        exact hc' ▸ digitChar_isDigit (n % 10) (Nat.mod_lt n (by norm_num))

theorem foldl_digitsOf :
    ∀ n a, (digitsOf n).foldl (fun m c => m * 10 + charVal c) a =
      a * 10 ^ (digitsOf n).length + n := by
  intro n
  induction n using Nat.strong_induction_on with
  | _ n ih =>
    intro a
    rw [digitsOf]
    split
    · next h10 =>
      simp [List.foldl_cons, digitChar_val n h10]
    · next h10 =>
      rw [List.foldl_append, ih (n / 10) (Nat.div_lt_self (by omega) (by norm_num)) a]
      simp only [List.foldl_cons, List.foldl_nil, List.length_append,
        List.length_singleton]
      rw [digitChar_val (n % 10) (Nat.mod_lt n (by norm_num))]
      have : a * 10 ^ (digitsOf (n / 10)).length * 10 =
          a * 10 ^ ((digitsOf (n / 10)).length + 1) := by ring
      rw [Nat.add_mul, this]
      have := Nat.div_add_mod n 10
      omega

theorem isDigit_ne_underscore {c : Char} (h : c.isDigit = true) : ¬(c = '_') := by
  intro he
  rw [he] at h
  exact absurd h (by decide)

theorem pyNumeralRest_all_digit :
    ∀ l : List Char, (∀ c ∈ l, c.isDigit = true) → pyNumeralRest l = true := by
  intro l
  induction l with
  | nil => intro _; rfl
  | cons c rest ih =>
    intro h
    have hc := h c (by simp)
    have hne := isDigit_ne_underscore hc
    cases rest with
    | nil => simp [pyNumeralRest, hc, hne]
    | cons d rest2 =>
      rw [pyNumeralRest, if_neg hne]
      simp [hc, ih (fun a ha => h a (by simp [ha]))]

theorem pyNumeral_digitsOf (n : Nat) : pyNumeral (digitsOf n) = true := by
  cases hd : digitsOf n with
  | nil => exact absurd hd (digitsOf_ne_nil n)
  | cons c rest =>
    have hall : ∀ a ∈ c :: rest, a.isDigit = true := by
      rw [← hd]
      exact digitsOf_all_digit n
    rw [pyNumeral]
    simp [hall c (by simp),
      pyNumeralRest_all_digit rest (fun d hd' => hall d (by simp [hd']))]

theorem filter_digitsOf (n : Nat) :
    (digitsOf n).filter (fun c => c != '_') = digitsOf n := by
  apply List.filter_eq_self.2
  intro c hc
  have hdig := digitsOf_all_digit n c hc
  simpa using isDigit_ne_underscore hdig

theorem parseNat_digitsOf (n : Nat) : parseNat (digitsOf n) = some n := by
  rw [parseNat, if_pos (pyNumeral_digitsOf n), filter_digitsOf, foldl_digitsOf n 0]
  simp

theorem digitsOf_inj {a b : Nat} (h : digitsOf a = digitsOf b) : a = b := by
  have ha := parseNat_digitsOf a
  rw [h, parseNat_digitsOf b] at ha
  exact (Option.some.inj ha).symm

theorem map_digitsOf_inj :
    ∀ {l1 l2 : List Nat}, l1.map digitsOf = l2.map digitsOf → l1 = l2 := by
  intro l1
  induction l1 with
  | nil =>
    intro l2 h
    cases l2 with
    | nil => rfl
    | cons y ys => simp at h
  | cons x xs ih =>
    intro l2 h
    cases l2 with
    | nil => simp at h
    | cons y ys =>
      simp only [List.map_cons, List.cons.injEq] at h
      rw [digitsOf_inj h.1, ih h.2]

theorem isDigit_ne_sign {c : Char} (h : c.isDigit = true) : c ≠ '-' ∧ c ≠ '+' := by
  constructor
  · intro heq
    rw [heq] at h
    exact absurd h (by decide)
  · intro heq
    rw [heq] at h
    exact absurd h (by decide)

theorem parseInt_digitsOf (n : Nat) : parseInt (digitsOf n) = some (Int.ofNat n) := by
  cases hd : digitsOf n with
  | nil => exact absurd hd (digitsOf_ne_nil n)
  | cons c rest =>
    have hc : c.isDigit = true := digitsOf_all_digit n c (by rw [hd]; simp)
    obtain ⟨h1, h2⟩ := isDigit_ne_sign hc
    rw [parseInt, if_neg h1, if_neg h2, ← hd, parseNat_digitsOf n]
    rfl

theorem parseIntList_digits :
    ∀ l : List Nat, (∀ n ∈ l, (n : Int) ≤ 2 ^ 63 - 1) →
      parseIntList (l.map digitsOf) = .ok (l.map Int.ofNat) := by
  intro l
  induction l with
  | nil => intro _; rfl
  | cons n rest ih =>
    intro hb
    have hn : (n : Int) ≤ 2 ^ 63 - 1 := hb n (by simp)
    have hrange : ¬(Int.ofNat n < -(2 ^ 63) ∨ (2 : Int) ^ 63 - 1 < Int.ofNat n) := by
      push_neg
      have hpos : (0 : Int) < 2 ^ 63 := by positivity
      have h0 : (0 : Int) ≤ Int.ofNat n := Int.natCast_nonneg n
      exact ⟨by linarith, by exact_mod_cast hn⟩
    simp only [List.map_cons, parseIntList, parseInt_digitsOf n, if_neg hrange,
      ih (fun m hm => hb m (by simp [hm])), Except.map]

theorem isDigit_not_ws {c : Char} (h : c.isDigit = true) : c.isWhitespace = false := by
  by_cases h1 : c = ' '
  · rw [h1] at h; exact absurd h (by decide)
  by_cases h2 : c = '\t'
  · rw [h2] at h; exact absurd h (by decide)
  by_cases h3 : c = '\r'
  · rw [h3] at h; exact absurd h (by decide)
  by_cases h4 : c = '\n'
  · rw [h4] at h; exact absurd h (by decide)
  simp [Char.isWhitespace, h1, h2, h3, h4]

/-! ## Tokenising a space-join recovers the tokens -/

theorem pySplitGo_token :
    ∀ (tok l acc : List Char), (∀ c ∈ tok, c.isWhitespace = false) →
      pySplitGo acc (tok ++ l) = pySplitGo (tok.reverse ++ acc) l := by
  intro tok
  induction tok with
  | nil => intro l acc _; simp
  | cons c t ih =>
    intro l acc hnw
    have hc : c.isWhitespace = false := hnw c (by simp)
    rw [List.cons_append, pySplitGo, hc]
    simp only [Bool.false_eq_true, if_false]
    rw [ih l (c :: acc) (fun d hd => hnw d (by simp [hd]))]
    simp

theorem pySplit_joinSp :
    ∀ toks : List (List Char),
      (∀ tk ∈ toks, tk ≠ [] ∧ ∀ c ∈ tk, c.isWhitespace = false) →
      pySplit (joinSp toks) = toks := by
  intro toks
  induction toks with
  | nil => intro _; rfl
  | cons t rest ih =>
    intro h
    obtain ⟨htne, htnw⟩ := h t (by simp)
    cases rest with
    | nil =>
      have hstep := pySplitGo_token t [] [] htnw
      simp only [List.append_nil] at hstep
      show pySplitGo [] t = [t]
      rw [hstep, pySplitGo, if_neg (by simpa using htne)]
      simp
    | cons t2 rest2 =>
      show pySplitGo [] (t ++ ' ' :: joinSp (t2 :: rest2)) = t :: t2 :: rest2
      rw [pySplitGo_token t (' ' :: joinSp (t2 :: rest2)) [] htnw]
      rw [List.append_nil, pySplitGo]
      rw [if_pos (by decide), if_neg (by simpa using htne)]
      rw [List.reverse_reverse]
      exact congrArg (t :: ·) (ih (fun tk htk => h tk (by simp [htk])))

/-! ## Boundary scan: support abstraction, parity and run coverage -/

theorem rleSeq_eq_rleSeqB {v : Nat} (hv : v ≠ 0) :
    ∀ (p : List Nat) (prev i : Nat), (∀ x ∈ p, x = 0 ∨ x = v) →
      (prev = 0 ∨ prev = v) →
      rleSeq prev i (p ++ [0]) = rleSeqB (prev != 0) i (p.map (fun x => x != 0)) := by
  intro p
  induction p with
  | nil =>
    intro prev i _ hprev
    show rleSeq prev i [0] = rleSeqB (prev != 0) i []
    by_cases hp : prev = 0
    · subst hp
      rw [rleSeq, if_neg (by omega), rleSeq]
      rfl
    · rw [rleSeq, if_pos (Ne.symm hp), rleSeq, rleSeqB,
        if_pos (by simpa using hp)]
  | cons x rest ih =>
    intro prev i hval hprev
    have hx : x = 0 ∨ x = v := hval x (by simp)
    have hrest : ∀ y ∈ rest, y = 0 ∨ y = v := fun y hy => hval y (by simp [hy])
    have hrec := ih x (i + 1) hrest hx
    show rleSeq prev i (x :: (rest ++ [0])) =
      rleSeqB (prev != 0) i ((x != 0) :: rest.map (fun z => z != 0))
    by_cases hxp : x = prev
    · subst hxp
      rw [rleSeq, if_neg (by simp), rleSeqB, if_neg (by simp), hrec]
    · have hbit : ((x != 0) : Bool) ≠ (prev != 0) := by
        rcases hx with rfl | rfl <;> rcases hprev with h0 | h0 <;>
          rw [h0] at hxp ⊢ <;> simp_all
      rw [rleSeq, if_pos hxp, rleSeqB, if_pos hbit, hrec]

theorem rleSeqB_parity :
    ∀ (b : List Bool) (i : Nat),
      (rleSeqB false i b).length % 2 = 0 ∧ (rleSeqB true i b).length % 2 = 1 := by
  intro b
  induction b with
  | nil => intro i; constructor <;> rfl
  | cons x rest ih =>
    intro i
    obtain ⟨ih0, ih1⟩ := ih (i + 1)
    cases x
    · constructor
      · rw [rleSeqB, if_neg (by simp)]
        exact ih0
      · rw [rleSeqB, if_pos (by simp)]
        simp only [List.length_cons]
        omega
    · constructor
      · rw [rleSeqB, if_pos (by simp)]
        simp only [List.length_cons]
        omega
      · rw [rleSeqB, if_neg (by simp)]
        exact ih1

theorem rleSeqB_ge :
    ∀ (b : List Bool) (prev : Bool) (i : Nat), ∀ x ∈ rleSeqB prev i b, i ≤ x := by
  intro b
  induction b with
  | nil =>
    intro prev i x hx
    rw [rleSeqB] at hx
    split at hx
    · simp only [List.mem_singleton] at hx
      omega
    · simp at hx
  | cons y rest ih =>
    intro prev i x hx
    rw [rleSeqB] at hx
    split at hx
    · rcases List.mem_cons.1 hx with rfl | hx'
      · omega
      · have := ih y (i + 1) x hx'
        omega
    · have := ih y (i + 1) x hx
      omega

theorem runPairs_fst_mem :
    ∀ (l : List Nat) (pr : Nat × Nat), pr ∈ runPairs l → pr.1 ∈ l := by
  refine twoStep (by simp [runPairs]) (fun x => by simp [runPairs]) ?_
  intro x y rest ih pr hpr
  rw [runPairs] at hpr
  rcases List.mem_cons.1 hpr with rfl | hpr'
  · simp
  · simp [ih pr hpr']

theorem rleSeqB_le :
    ∀ (b : List Bool) (prev : Bool) (i : Nat), ∀ x ∈ rleSeqB prev i b,
      x ≤ i + b.length := by
  intro b
  induction b with
  | nil =>
    intro prev i x hx
    rw [rleSeqB] at hx
    split at hx
    · simp only [List.mem_singleton] at hx
      omega
    · simp at hx
  | cons y rest ih =>
    intro prev i x hx
    rw [rleSeqB] at hx
    simp only [List.length_cons]
    split at hx
    · rcases List.mem_cons.1 hx with rfl | hx'
      · omega
      · have := ih y (i + 1) x hx'
        omega
    · have := ih y (i + 1) x hx
      omega

theorem runPairs_mem_le :
    ∀ (l : List Nat) (m : Nat), (∀ x ∈ l, x ≤ m) →
      ∀ pr ∈ runPairs l, pr.1 ≤ m ∧ pr.2 ≤ m := by
  refine twoStep (by intro m _ pr hpr; simp [runPairs] at hpr)
    (fun x => by intro m _ pr hpr; simp [runPairs] at hpr) ?_
  intro x y rest ih m hm pr hpr
  rw [runPairs] at hpr
  rcases List.mem_cons.1 hpr with rfl | hpr'
  · refine ⟨hm x (by simp), ?_⟩
    have hy := hm y (by simp)
    show y - x ≤ m
    omega
  · exact ih m (fun a ha => hm a (by simp [ha])) pr hpr'

theorem evens_pairSub :
    ∀ l : List Nat, l.length % 2 = 0 →
      evens (pairSub l) = (runPairs l).map Prod.fst := by
  refine twoStep (fun _ => rfl) (fun x h => by simp at h) ?_
  intro x y rest ih h
  simp only [List.length_cons] at h
  rw [pairSub, runPairs]
  show x :: evens (pairSub rest) = x :: (runPairs rest).map Prod.fst
  rw [ih (by omega)]

theorem odds_pairSub :
    ∀ l : List Nat, l.length % 2 = 0 →
      odds (pairSub l) = (runPairs l).map Prod.snd := by
  refine twoStep (fun _ => rfl) (fun x h => by simp at h) ?_
  intro x y rest ih h
  simp only [List.length_cons] at h
  rw [pairSub, runPairs]
  show (y - x) :: odds (pairSub rest) = (y - x) :: (runPairs rest).map Prod.snd
  rw [ih (by omega)]

theorem zip_fst_snd {α β : Type} :
    ∀ l : List (α × β), (l.map Prod.fst).zip (l.map Prod.snd) = l := by
  intro l
  induction l with
  | nil => rfl
  | cons p ps ih =>
    rw [List.map_cons, List.map_cons, List.zip_cons_cons, ih]

theorem runPairs_eq_of_pairSub {l1 l2 : List Nat} (h1 : l1.length % 2 = 0)
    (h2 : l2.length % 2 = 0) (h : pairSub l1 = pairSub l2) :
    runPairs l1 = runPairs l2 := by
  have e1 : runPairs l1 = (evens (pairSub l1)).zip (odds (pairSub l1)) := by
    rw [evens_pairSub l1 h1, odds_pairSub l1 h1, zip_fst_snd]
  have e2 : runPairs l2 = (evens (pairSub l2)).zip (odds (pairSub l2)) := by
    rw [evens_pairSub l2 h2, odds_pairSub l2 h2, zip_fst_snd]
  rw [e1, e2, h]

theorem coveredRuns_cons {p : Nat × Nat} {ps : List (Nat × Nat)} {j : Nat} :
    coveredRuns (p :: ps) j ↔ coveredRun p j ∨ coveredRuns ps j := by
  simp [coveredRuns]

theorem coveredRuns_nil {j : Nat} : ¬coveredRuns [] j := by
  simp [coveredRuns]

/-- Coverage of the runs produced by the boundary scan of a support list: with
no run open (`prev = false`), the covered pixels are exactly the set pixels of
the remaining support, shifted to absolute position `i - 1`; with a run open
since boundary `s ≤ i`, the pixels `[s - 1, i - 1)` are additionally covered. -/
theorem rleSeqB_cover :
    ∀ (b : List Bool) (i : Nat), 1 ≤ i →
      ((∀ j, coveredRuns (runPairs (rleSeqB false i b)) j ↔
        ∃ k, k < b.length ∧ b.getD k false = true ∧ j + 1 = i + k) ∧
       (∀ s, 1 ≤ s → s ≤ i → ∀ j,
        coveredRuns (runPairs (s :: rleSeqB true i b)) j ↔
          ((s ≤ j + 1 ∧ j + 1 < i) ∨
           ∃ k, k < b.length ∧ b.getD k false = true ∧ j + 1 = i + k))) := by
  intro b
  induction b with
  | nil =>
    intro i hi
    constructor
    · intro j
      show coveredRuns [] j ↔ _
      simp [coveredRuns_nil]
    · intro s hs1 hsi j
      show coveredRuns [(s, i - s)] j ↔ _
      rw [coveredRuns_cons]
      simp only [coveredRuns_nil, or_false]
      unfold coveredRun
      simp only [List.length_nil]
      constructor
      · rintro ⟨h1, h2⟩
        exact Or.inl ⟨h1, by omega⟩
      · rintro (⟨h1, h2⟩ | ⟨k, hk, _⟩)
        · exact ⟨h1, by omega⟩
        · omega
  | cons x rest ih =>
    intro i hi
    obtain ⟨ihP, ihQ⟩ := ih (i + 1) (by omega)
    constructor
    · intro j
      cases x
      · rw [rleSeqB, if_neg (by simp)]
        rw [ihP j]
        constructor
        · rintro ⟨k, hk, hb, hj⟩
          exact ⟨k + 1, by simpa using hk, by simpa using hb, by omega⟩
        · rintro ⟨k, hk, hb, hj⟩
          cases k with
          | zero => simp at hb
          | succ k' =>
            exact ⟨k', by simpa using hk, by simpa using hb, by omega⟩
      · rw [rleSeqB, if_pos (by simp)]
        rw [ihQ i hi (by omega) j]
        constructor
        · rintro (⟨h1, h2⟩ | ⟨k, hk, hb, hj⟩)
          · exact ⟨0, by simp, by simp, by omega⟩
          · exact ⟨k + 1, by simpa using hk, by simpa using hb, by omega⟩
        · rintro ⟨k, hk, hb, hj⟩
          cases k with
          | zero => exact Or.inl (by omega)
          | succ k' =>
            exact Or.inr ⟨k', by simpa using hk, by simpa using hb, by omega⟩
    · intro s hs1 hsi j
      cases x
      · rw [rleSeqB, if_pos (by simp)]
        show coveredRuns ((s, i - s) :: runPairs (rleSeqB false (i + 1) rest)) j ↔ _
        rw [coveredRuns_cons, ihP j]
        unfold coveredRun
        constructor
        · rintro (⟨h1, h2⟩ | ⟨k, hk, hb, hj⟩)
          · refine Or.inl ⟨by simpa using h1, ?_⟩
            simp only at h2
            omega
          · exact Or.inr ⟨k + 1, by simpa using hk, by simpa using hb, by omega⟩
        · rintro (⟨h1, h2⟩ | ⟨k, hk, hb, hj⟩)
          · exact Or.inl ⟨h1, by simp; omega⟩
          · cases k with
            | zero => simp at hb
            | succ k' =>
              exact Or.inr ⟨k', by simpa using hk, by simpa using hb, by omega⟩
      · rw [rleSeqB, if_neg (by simp)]
        rw [ihQ s hs1 (by omega) j]
        constructor
        · rintro (⟨h1, h2⟩ | ⟨k, hk, hb, hj⟩)
          · rcases Nat.lt_or_ge (j + 1) i with hcase | hcase
            · exact Or.inl ⟨h1, hcase⟩
            · exact Or.inr ⟨0, by simp, by simp, by omega⟩
          · exact Or.inr ⟨k + 1, by simpa using hk, by simpa using hb, by omega⟩
        · rintro (⟨h1, h2⟩ | ⟨k, hk, hb, hj⟩)
          · exact Or.inl ⟨h1, by omega⟩
          · cases k with
            | zero => exact Or.inl (by omega)
            | succ k' =>
              exact Or.inr ⟨k', by simpa using hk, by simpa using hb, by omega⟩

/-! ## Assembling the round trip -/

theorem any_map' {α β : Type} (f : α → β) (p : β → Bool) :
    ∀ l : List α, (l.map f).any p = l.any (fun a => p (f a)) := by
  intro l
  induction l with
  | nil => rfl
  | cons x xs ih => simp [List.any_cons, ih]

theorem coveredB_coveredRun {n j : Nat} {pr : Nat × Nat} (hpr : 1 ≤ pr.1)
    (hj : j < n) :
    (coveredB n ((pr.1 : Int) - 1, (pr.1 : Int) - 1 + (pr.2 : Int)) j = true) ↔
      coveredRun pr j := by
  obtain ⟨s, l⟩ := pr
  simp only at hpr
  simp only [coveredB, coveredRun, Bool.and_eq_true, decide_eq_true_eq, sliceIdx]
  rw [if_neg (by omega), if_neg (by omega)]
  constructor
  · rintro ⟨h1, h2⟩
    constructor <;> omega
  · rintro ⟨h1, h2⟩
    constructor <;> omega

theorem flatten_length_of_shape {mask : List (List Nat)} {h w : Nat}
    (hs : hasShape mask h w) : mask.flatten.length = h * w := by
  obtain ⟨hlen, hrow⟩ := hs
  rw [List.length_flatten]
  have hrep : mask.map List.length = List.replicate h w := by
    rw [List.eq_replicate_iff]
    refine ⟨by simp [hlen], ?_⟩
    intro b hb
    obtain ⟨row, hrow', rfl⟩ := List.mem_map.1 hb
    exact hrow row hrow'
  rw [hrep, List.sum_replicate, smul_eq_mul]

theorem getD_map_bool {l : List Nat} {j : Nat} (hj : j < l.length) :
    (l.map (fun x => x != 0)).getD j false = (l.getD j 0 != 0) := by
  rw [List.getD_eq_getElem?_getD, List.getElem?_map, List.getElem?_eq_getElem hj,
    List.getD_eq_getElem?_getD, List.getElem?_eq_getElem hj]
  rfl

theorem range_map_getD (g : Nat → Nat) :
    ∀ row : List Nat,
      (List.range row.length).map (fun c => g (row.getD c 0)) = row.map g := by
  intro row
  induction row with
  | nil => rfl
  | cons x xs ih =>
    show (List.range (xs.length + 1)).map _ = _
    rw [List.range_succ_eq_map, List.map_cons, List.map_map]
    simp only [List.getD_cons_zero, List.map_cons]
    refine congrArg₂ List.cons rfl ?_
    rw [← ih]
    apply List.map_congr_left
    intro c _
    simp [List.getD_cons_succ, Function.comp]

theorem grid_map_flatten (f : Nat → Nat) :
    ∀ (mask : List (List Nat)) (h w : Nat), mask.length = h →
      (∀ row ∈ mask, row.length = w) →
      ((List.range h).map fun r => (List.range w).map fun c =>
        f (mask.flatten.getD (r * w + c) 0)) =
      mask.map (fun row => row.map f) := by
  intro mask
  induction mask with
  | nil =>
    intro h w hlen _
    rw [← hlen]
    rfl
  | cons row rest ih =>
    intro h w hlen hrow
    have hw : row.length = w := hrow row (by simp)
    subst hlen
    simp only [List.flatten_cons, List.length_cons]
    rw [List.range_succ_eq_map, List.map_cons, List.map_map]
    congr 1
    · show (List.range w).map
          (fun c => f ((row ++ rest.flatten).getD (0 * w + c) 0)) = row.map f
      rw [← hw, ← range_map_getD f row]
      apply List.map_congr_left
      intro c hc
      rw [List.mem_range] at hc
      rw [Nat.zero_mul, Nat.zero_add, List.getD_append _ _ _ _ hc]
    · rw [← ih rest.length w rfl (fun r hr => hrow r (by simp [hr]))]
      apply List.map_congr_left
      intro r _
      simp only [Function.comp]
      apply List.map_congr_left
      intro c hc
      rw [List.mem_range] at hc
      have harith : Nat.succ r * w + c = row.length + (r * w + c) := by
        rw [hw, Nat.succ_mul]
        omega
      rw [harith, List.getD_append_right _ _ _ _ (by omega)]
      congr 2
      omega

/-- The tokens of an encoded two-valued mask are the rendered decimal numerals
of the flat boundary-run list of its support. -/
theorem encode_rle_tokens {mask : List (List Nat)} {v : Nat} (hv : v ≠ 0)
    (htv : twoValued mask v) :
    pySplit (encode_rle mask) =
      (pairSub (rleSeqB false 1 (mask.flatten.map (fun x => x != 0)))).map
        digitsOf := by
  have henc : encode_rle mask =
      joinSp ((pairSub (rleSeqB false 1 (mask.flatten.map (fun x => x != 0)))).map
        digitsOf) := by
    show joinSp ((pairSub (rleSeq 0 1 (mask.flatten ++ [0]))).map
      (fun x => Nat.toDigits 10 x)) = _
    rw [rleSeq_eq_rleSeqB hv mask.flatten 0 1 htv (Or.inl rfl)]
    have hmapdig : (fun x => Nat.toDigits 10 x) = digitsOf :=
      funext toDigits_eq_digitsOf
    rw [hmapdig]
    rfl
  rw [henc]
  apply pySplit_joinSp
  intro tk htk
  obtain ⟨nval, _, rfl⟩ := List.mem_map.1 htk
  exact ⟨digitsOf_ne_nil nval,
    fun c hc => isDigit_not_ws (digitsOf_all_digit nval c hc)⟩

/-- Equal run-pair lists over two equal-length supports force the supports to
agree pointwise. -/
theorem support_eq_of_runPairs {b1 b2 : List Bool}
    (hlen : b1.length = b2.length)
    (h : runPairs (rleSeqB false 1 b1) = runPairs (rleSeqB false 1 b2)) :
    ∀ j, b1.getD j false = b2.getD j false := by
  intro j
  by_cases hj : j < b1.length
  · have c1 := (rleSeqB_cover b1 1 (le_refl 1)).1 j
    have c2 := (rleSeqB_cover b2 1 (le_refl 1)).1 j
    rw [h] at c1
    have hiff : (∃ k, k < b1.length ∧ b1.getD k false = true ∧ j + 1 = 1 + k) ↔
        (∃ k, k < b2.length ∧ b2.getD k false = true ∧ j + 1 = 1 + k) :=
      c1.symm.trans c2
    cases hb1 : b1.getD j false with
    | false =>
      cases hb2 : b2.getD j false with
      | false => rfl
      | true =>
        obtain ⟨k, hk, hbk, hjk⟩ := hiff.2 ⟨j, by omega, hb2, by omega⟩
        have hkj : k = j := by omega
        subst hkj
        rw [hb1] at hbk
        exact Bool.noConfusion hbk
    | true =>
      obtain ⟨k, hk, hbk, hjk⟩ := hiff.1 ⟨j, hj, hb1, by omega⟩
      have hkj : k = j := by omega
      subst hkj
      exact hbk.symm
  · have hj2 : ¬ j < b2.length := by
      rw [← hlen]
      exact hj
    rw [List.getD_eq_default, List.getD_eq_default]
    · omega
    · omega

/-- Two equal-length pixel lists over the same two values with the same support
are equal. -/
theorem getD_eq_of_support {f1 f2 : List Nat} {v : Nat} (hv : v ≠ 0)
    (h1 : ∀ x ∈ f1, x = 0 ∨ x = v) (h2 : ∀ x ∈ f2, x = 0 ∨ x = v)
    (hlen : f1.length = f2.length)
    (hsup : ∀ j, (f1.map (fun x => x != 0)).getD j false =
      (f2.map (fun x => x != 0)).getD j false) :
    f1 = f2 := by
  apply List.ext_getElem hlen
  intro i hi1 hi2
  have hs := hsup i
  rw [getD_map_bool hi1, getD_map_bool hi2] at hs
  have e1 : f1.getD i 0 = f1[i] := by
    rw [List.getD_eq_getElem?_getD, List.getElem?_eq_getElem hi1]
    rfl
  have e2 : f2.getD i 0 = f2[i] := by
    rw [List.getD_eq_getElem?_getD, List.getElem?_eq_getElem hi2]
    rfl
  rw [e1, e2] at hs
  have hvb : (v != 0) = true := by
    rw [bne_iff_ne]
    exact hv
  rcases h1 f1[i] (List.getElem_mem hi1) with ha | ha <;>
    rcases h2 f2[i] (List.getElem_mem hi2) with hb | hb
  · rw [ha, hb]
  · rw [ha, hb] at hs
    rw [hvb] at hs
    simp at hs
  · rw [ha, hb] at hs
    rw [hvb] at hs
    simp at hs
  · rw [ha, hb]

/-- A 2-d mask is determined by its shape and its flattened pixel list. -/
theorem mask_eq_of_flatten :
    ∀ (M1 M2 : List (List Nat)) (w : Nat), M1.length = M2.length →
      (∀ row ∈ M1, row.length = w) → (∀ row ∈ M2, row.length = w) →
      M1.flatten = M2.flatten → M1 = M2 := by
  intro M1
  induction M1 with
  | nil =>
    intro M2 w hlen _ _ _
    cases M2 with
    | nil => rfl
    | cons r rs => simp at hlen
  | cons r1 rs1 ih =>
    intro M2 w hlen h1 h2 hf
    cases M2 with
    | nil => simp at hlen
    | cons r2 rs2 =>
      simp only [List.flatten_cons] at hf
      have hw1 : r1.length = w := h1 r1 (by simp)
      have hw2 : r2.length = w := h2 r2 (by simp)
      obtain ⟨hr, hrs⟩ := List.append_inj hf (by rw [hw1, hw2])
      rw [hr, ih rs2 w (by simpa using hlen) (fun r hr' => h1 r (by simp [hr']))
        (fun r hr' => h2 r (by simp [hr'])) hrs]

/-- Core round-trip lemma: decoding the encoding of a two-valued mask at its
own shape yields the mask with every foreground pixel replaced by 255, as long
as the padded pixel count fits in a signed 64-bit integer (`np.asarray(...,
dtype=int)` can only hold boundary indices up to `2 ** 63 - 1`; every mask
that numpy itself can represent satisfies the bound). -/
theorem round_trip_core {mask : List (List Nat)} {v : Nat} (hv : v ≠ 0)
    (htv : twoValued mask v) {h w : Nat} (hshape : hasShape mask h w)
    (hsize : h * w + 2 ≤ 2 ^ 63) :
    decode_rle (encode_rle mask) (h, w) =
      .ok (mask.map (fun row => row.map (fun x => if x = 0 then 0 else 255))) := by
  have hflen : mask.flatten.length = h * w := flatten_length_of_shape hshape
  have hblen : (mask.flatten.map (fun x => x != 0)).length = h * w := by
    rw [List.length_map]
    exact hflen
  have hpar := (rleSeqB_parity (mask.flatten.map (fun x => x != 0)) 1).1
  have htokens := encode_rle_tokens hv htv
  -- every emitted boundary value (hence every start and length) fits in int64
  have hble : ∀ x ∈ rleSeqB false 1 (mask.flatten.map (fun x => x != 0)),
      x ≤ 1 + h * w := by
    intro x hx
    have h1 := rleSeqB_le _ false 1 x hx
    rw [hblen] at h1
    exact h1
  have hIntBound : ∀ n : Nat, n ≤ 1 + h * w → (n : Int) ≤ 2 ^ 63 - 1 := by
    intro n hn
    have hn' : (n : Int) ≤ 1 + (h : Int) * w := by exact_mod_cast hn
    have hsz : (h : Int) * w + 2 ≤ 2 ^ 63 := by exact_mod_cast hsize
    linarith
  have hfst : ∀ n ∈ ((runPairs (rleSeqB false 1
      (mask.flatten.map (fun x => x != 0)))).map Prod.fst),
      (n : Int) ≤ 2 ^ 63 - 1 := by
    intro n hn
    obtain ⟨pr, hpr, rfl⟩ := List.mem_map.1 hn
    exact hIntBound pr.1 (runPairs_mem_le _ (1 + h * w) hble pr hpr).1
  have hsnd : ∀ n ∈ ((runPairs (rleSeqB false 1
      (mask.flatten.map (fun x => x != 0)))).map Prod.snd),
      (n : Int) ≤ 2 ^ 63 - 1 := by
    intro n hn
    obtain ⟨pr, hpr, rfl⟩ := List.mem_map.1 hn
    exact hIntBound pr.2 (runPairs_mem_le _ (1 + h * w) hble pr hpr).2
  have hs : parseIntList (evens (pySplit (encode_rle mask))) =
      .ok (((runPairs (rleSeqB false 1 (mask.flatten.map (fun x => x != 0)))).map
        Prod.fst).map Int.ofNat) := by
    rw [htokens, evens_map, evens_pairSub _ hpar, parseIntList_digits _ hfst]
  have hl : parseIntList (odds (pySplit (encode_rle mask))) =
      .ok (((runPairs (rleSeqB false 1 (mask.flatten.map (fun x => x != 0)))).map
        Prod.snd).map Int.ofNat) := by
    rw [htokens, odds_map, odds_pairSub _ hpar, parseIntList_digits _ hsnd]
  rw [decode_rle_eq_ok hs hl (by simp)]
  -- the painted pairs are the image of the run pairs
  have hstarts : ((((runPairs (rleSeqB false 1
        (mask.flatten.map (fun x => x != 0)))).map Prod.fst).map Int.ofNat).map
          (fun x => x - 1)) =
      (runPairs (rleSeqB false 1 (mask.flatten.map (fun x => x != 0)))).map
        (fun pr => (pr.1 : Int) - 1) := by
    rw [List.map_map, List.map_map]
    rfl
  have hpairs : ((((runPairs (rleSeqB false 1
        (mask.flatten.map (fun x => x != 0)))).map Prod.fst).map Int.ofNat).map
          (fun x => x - 1)).zip
      (List.zipWith (fun x y => x + y)
        ((((runPairs (rleSeqB false 1
          (mask.flatten.map (fun x => x != 0)))).map Prod.fst).map Int.ofNat).map
            (fun x => x - 1))
        (((runPairs (rleSeqB false 1
          (mask.flatten.map (fun x => x != 0)))).map Prod.snd).map Int.ofNat)) =
      (runPairs (rleSeqB false 1 (mask.flatten.map (fun x => x != 0)))).map
        (fun pr => ((pr.1 : Int) - 1, (pr.1 : Int) - 1 + (pr.2 : Int))) := by
    rw [hstarts, List.map_map, List.zipWith_map, List.zipWith_same, List.zip_map']
    rfl
  rw [hpairs]
  -- pointwise value of the painted image
  have himg : ∀ j, j < h * w →
      (((runPairs (rleSeqB false 1 (mask.flatten.map (fun x => x != 0)))).map
        (fun pr => ((pr.1 : Int) - 1, (pr.1 : Int) - 1 + (pr.2 : Int)))).foldl
          (fun im p => sliceAssign im p.1 p.2 255)
          (List.replicate (h * w) 0)).getD j 0 =
        (fun x => if x = 0 then 0 else 255) (mask.flatten.getD j 0) := by
    intro j hj
    rw [fold_sliceAssign_getD _ _ j (by simpa using hj)]
    rw [getD_replicate_zero]
    have hany : (((runPairs (rleSeqB false 1
        (mask.flatten.map (fun x => x != 0)))).map
          (fun pr => ((pr.1 : Int) - 1, (pr.1 : Int) - 1 + (pr.2 : Int)))).any
        (fun p => coveredB (List.replicate (h * w) (0 : Nat)).length p j)) = true ↔
        (mask.flatten.getD j 0 != 0) = true := by
      rw [any_map']
      rw [List.any_eq_true]
      have hcov : ∀ pr ∈ runPairs (rleSeqB false 1
          (mask.flatten.map (fun x => x != 0))),
          ((coveredB (List.replicate (h * w) (0 : Nat)).length
            ((pr.1 : Int) - 1, (pr.1 : Int) - 1 + (pr.2 : Int)) j) = true ↔
            coveredRun pr j) := by
        intro pr hpr
        have h1 : 1 ≤ pr.1 :=
          rleSeqB_ge _ false 1 pr.1 (runPairs_fst_mem _ pr hpr)
        simpa using coveredB_coveredRun h1 hj
      constructor
      · rintro ⟨pr, hpr, hc⟩
        have : coveredRuns (runPairs (rleSeqB false 1
            (mask.flatten.map (fun x => x != 0)))) j :=
          ⟨pr, hpr, (hcov pr hpr).1 hc⟩
        rw [(rleSeqB_cover (mask.flatten.map (fun x => x != 0)) 1
          (le_refl 1)).1 j] at this
        obtain ⟨k, hk, hb, hjk⟩ := this
        have hkj : k = j := by omega
        subst hkj
        rw [getD_map_bool (by omega)] at hb
        exact hb
      · intro hb
        have : coveredRuns (runPairs (rleSeqB false 1
            (mask.flatten.map (fun x => x != 0)))) j := by
          rw [(rleSeqB_cover (mask.flatten.map (fun x => x != 0)) 1
            (le_refl 1)).1 j]
          refine ⟨j, by omega, ?_, by omega⟩
          rw [getD_map_bool (by omega)]
          exact hb
        obtain ⟨pr, hpr, hc⟩ := this
        exact ⟨pr, hpr, (hcov pr hpr).2 hc⟩
    by_cases h0 : mask.flatten.getD j 0 = 0
    · have hb0 : (mask.flatten.getD j 0 != 0) = false := by
        rw [h0]
        rfl
      rw [if_neg (by rw [hany, hb0]; simp)]
      rw [h0]
      rfl
    · have hb1 : (mask.flatten.getD j 0 != 0) = true := by
        rw [bne_iff_ne]
        exact h0
      rw [if_pos (hany.2 hb1)]
      simp only [if_neg h0]
  -- reduce the reshape to a 2-d map over the mask
  show Except.ok _ = _
  congr 1
  rw [reshape]
  calc (List.range h).map (fun r => (List.range w).map fun c =>
        (((runPairs (rleSeqB false 1 (mask.flatten.map (fun x => x != 0)))).map
          (fun pr => ((pr.1 : Int) - 1, (pr.1 : Int) - 1 + (pr.2 : Int)))).foldl
            (fun im p => sliceAssign im p.1 p.2 255)
            (List.replicate (h * w) 0)).getD (r * w + c) 0)
      = (List.range h).map (fun r => (List.range w).map fun c =>
          (fun x => if x = 0 then 0 else 255) (mask.flatten.getD (r * w + c) 0)) := by
        apply List.map_congr_left
        intro r hr
        apply List.map_congr_left
        intro c hc
        rw [List.mem_range] at hr hc
        exact himg (r * w + c) (rc_lt_mul hr hc)
    _ = mask.map (fun row => row.map (fun x => if x = 0 then 0 else 255)) :=
        grid_map_flatten (fun x => if x = 0 then 0 else 255) mask h w
          hshape.1 hshape.2

/-! ## Claim C1 -/

/-- C1: for every two-valued mask with background 0 and foreground `v`,
`decode_rle(encode_rle(M), shape=M.shape)` is pixel-for-pixel equal to `M` with
every foreground pixel replaced by 255; in particular, when the foreground
value is already 255 the round trip reproduces `M` exactly.  The size
hypothesis `h * w + 2 ≤ 2 ** 63` reflects `np.asarray(..., dtype=int)` in
`decode_rle`: the rendered boundary indices, at most `h * w + 1`, must fit in
a signed 64-bit integer, which holds for every mask numpy can represent (numpy
arrays are indexed by int64). -/
theorem encode_decode_round_trip (mask : List (List Nat)) (v h w : Nat)
    (hv : v ≠ 0) (htv : twoValued mask v) (hshape : hasShape mask h w)
    (hsize : h * w + 2 ≤ 2 ^ 63) :
    decode_rle (encode_rle mask) (h, w) =
      .ok (mask.map (fun row => row.map (fun x => if x = 0 then 0 else 255))) ∧
    (v = 255 → decode_rle (encode_rle mask) (h, w) = .ok mask) := by
  have hmain := round_trip_core hv htv hshape hsize
  refine ⟨hmain, ?_⟩
  rintro rfl
  have hrowid : ∀ row ∈ mask,
      row.map (fun x => if x = 0 then 0 else 255) = row := by
    intro row hrow
    have hpt : ∀ x ∈ row, (if x = 0 then 0 else 255) = id x := by
      intro x hx
      rcases htv x (List.mem_flatten.2 ⟨row, hrow, hx⟩) with rfl | rfl
      · rfl
      · rfl
    rw [List.map_congr_left hpt, List.map_id]
  have hmaskid : mask.map
      (fun row => row.map (fun x => if x = 0 then 0 else 255)) = mask := by
    have hpt : ∀ row ∈ mask,
        row.map (fun x => if x = 0 then 0 else 255) = id row :=
      fun row hr => hrowid row hr
    rw [List.map_congr_left hpt, List.map_id]
  rw [hmain, hmaskid]

/-- Witness for C1 at the spec's concrete example mask `[[0, 0], [0, 255]]`,
whose encoding is `"4 1"`. -/
theorem encode_decode_round_trip_witness :
    twoValued [[0, 0], [0, 255]] 255 ∧ hasShape [[0, 0], [0, 255]] 2 2 ∧
    2 * 2 + 2 ≤ 2 ^ 63 ∧
    decode_rle (encode_rle [[0, 0], [0, 255]]) (2, 2) = .ok [[0, 0], [0, 255]] :=
  ⟨by decide, by decide, by norm_num,
    (encode_decode_round_trip [[0, 0], [0, 255]] 255 2 2 (by decide) (by decide)
      (by decide) (by norm_num)).2 rfl⟩

/-! ## Claim C2 -/

/-- C2 counterexample: the masks `[[0, 1]]` and `[[0, 255]]` are both
two-valued with background 0 and the same shape, and differ in one pixel, yet
they produce the identical encoding (the string `"2 1"`): the boundary scan
sees only which pixels are nonzero, so the claimed injectivity on all
two-valued masks fails. -/
theorem encode_rle_not_injective :
    encode_rle [[0, 1]] = encode_rle [[0, 255]] ∧
    ([[0, 1]] : List (List Nat)) ≠ [[0, 255]] ∧
    twoValued [[0, 1]] 1 ∧ twoValued [[0, 255]] 255 ∧
    hasShape [[0, 1]] 1 2 ∧ hasShape [[0, 255]] 1 2 :=
  ⟨by decide, by decide, by decide, by decide, by decide, by decide⟩

/-- C2 (amended): `encode_rle` is deterministic — pixel-identical masks give
byte-identical encodings — and injective on two-valued masks that share the
same foreground value: two same-shape masks with foreground value `v` that
differ in at least one pixel produce different encodings.  (Masks with the
same support but different foreground values encode identically, see the
counterexample.) -/
theorem encode_rle_deterministic_injective :
    (∀ M1 M2 : List (List Nat), M1 = M2 → encode_rle M1 = encode_rle M2) ∧
    ∀ (M1 M2 : List (List Nat)) (v h w : Nat), v ≠ 0 →
      twoValued M1 v → twoValued M2 v → hasShape M1 h w → hasShape M2 h w →
      M1 ≠ M2 → encode_rle M1 ≠ encode_rle M2 := by
  constructor
  · intro M1 M2 h
    rw [h]
  · intro M1 M2 v h w hv h1 h2 hs1 hs2 hne heq
    apply hne
    -- equal encodings give equal token lists, hence equal flat run lists
    have ht1 := encode_rle_tokens hv h1
    have ht2 := encode_rle_tokens hv h2
    rw [heq, ht2] at ht1
    have hpar1 := (rleSeqB_parity (M1.flatten.map (fun x => x != 0)) 1).1
    have hpar2 := (rleSeqB_parity (M2.flatten.map (fun x => x != 0)) 1).1
    have hrp := runPairs_eq_of_pairSub hpar2 hpar1 (map_digitsOf_inj ht1)
    -- equal run pairs force equal supports, hence equal pixels
    have hflen1 : M1.flatten.length = h * w := flatten_length_of_shape hs1
    have hflen2 : M2.flatten.length = h * w := flatten_length_of_shape hs2
    have hsup := support_eq_of_runPairs
      (by rw [List.length_map, List.length_map, hflen1, hflen2]) hrp
    have hflat : M2.flatten = M1.flatten :=
      getD_eq_of_support hv h2 h1 (hflen2.trans hflen1.symm) hsup
    exact (mask_eq_of_flatten M2 M1 w (hs2.1.trans hs1.1.symm) hs2.2 hs1.2
      hflat).symm

/-- Witness for C2: determinism at a concrete mask, and distinct encodings for
two same-shape masks with foreground value 255 differing in one pixel. -/
theorem encode_rle_deterministic_injective_witness :
    encode_rle [[0, 255]] = encode_rle [[0, 255]] ∧
    encode_rle [[0, 255]] ≠ encode_rle [[0, 0]] :=
  ⟨encode_rle_deterministic_injective.1 [[0, 255]] [[0, 255]] rfl,
    encode_rle_deterministic_injective.2 [[0, 255]] [[0, 0]] 255 1 2 (by decide)
      (by decide) (by decide) (by decide) (by decide) (by decide)⟩

end RepoModel
